import Mathlib

/-
  Verification of the receiver-side BIP-78 payjoin state machine of
  rust-payjoin (payjoin/src/receive/mod.rs), against its design
  specification.

  Modelling conventions:
  * amounts are satoshis, embedded as Nat (bitcoin::Amount);
  * fee rates are sat/kwu, embedded as Nat (bitcoin::FeeRate;
    FeeRate::MIN = 0);
  * scripts are opaque Nat identifiers (equality is all the code uses);
  * the bitcoin::psbt data model keeps the source's split between the
    unsigned transaction (unsigned_tx.input / unsigned_tx.output) and the
    per-input / per-output psbt metadata lists (inputs / outputs);
  * Rust HashMap iteration order is unspecified, so a candidate map is
    embedded as an association list and all theorems quantify over the
    order;
  * the two per-call random draws of the source (the owned vout chosen by
    owned_vouts.choose and the insertion index drawn from
    gen_range(0..=input_count)) are passed as explicit arguments; the
    theorems carry the range facts the RNG guarantees as hypotheses;
  * Rust index expressions that can panic (vector indexing out of bounds,
    Amount subtraction underflow, expect on an empty slice) are embedded
    with getD / truncated subtraction / no-op set; each such spot is
    marked with a comment, and every theorem about such code carries the
    in-range hypotheses under which the embedding and the source agree.
    The pipeline invariant proved for claim C9 shows those hypotheses
    hold in every reachable state.
-/

namespace PayjoinReceive

/-- bitcoin::OutPoint, the (txid, vout) pair identifying a spent output. -/
structure OutPoint where
  txid : Nat
  vout : Nat
deriving DecidableEq, Repr

/-- bitcoin::TxOut: an output value in sats and an opaque script id. -/
structure TxOut where
  value : Nat
  script_pubkey : Nat
deriving DecidableEq, Repr

/-- bitcoin::TxIn restricted to the fields the receive module reads:
previous_output and sequence. -/
structure TxIn where
  previous_output : OutPoint
  sequence : Nat
deriving DecidableEq, Repr

/-- Default nSequence: rust-bitcoin Sequence::default() = Sequence::MAX. -/
def defaultSequence : Nat := 0xFFFFFFFF

/-- bitcoin::Transaction restricted to its input and output lists. -/
structure Transaction where
  input : List TxIn
  output : List TxOut
deriving DecidableEq, Repr

/-- bitcoin::psbt::Input restricted to the fields receive/mod.rs touches.
The source field partial_sigs is named part_sigs here. Defaults mirror
psbt::Input::default(). -/
structure PsbtInput where
  non_witness_utxo : Option Transaction := none
  witness_utxo : Option TxOut := none
  part_sigs : List (Nat × Nat) := []
  bip32_derivation : List (Nat × Nat) := []
  final_script_sig : Option Nat := none
  final_script_witness : Option Nat := none
  tap_key_sig : Option Nat := none
  tap_key_origins : List (Nat × Nat) := []
  tap_internal_key : Option Nat := none
deriving DecidableEq, Repr

instance : Inhabited PsbtInput := ⟨{}⟩

/-- bitcoin::psbt::Output restricted to the fields receive/mod.rs touches. -/
structure PsbtOutput where
  bip32_derivation : List (Nat × Nat) := []
  tap_internal_key : Option Nat := none
  tap_key_origins : List (Nat × Nat) := []
deriving DecidableEq, Repr

/-- bitcoin::psbt::Psbt: the unsigned transaction plus metadata lists. -/
structure Psbt where
  unsigned_tx : Transaction
  inputs : List PsbtInput
  outputs : List PsbtOutput
deriving DecidableEq, Repr

/-- Sender parameters (receive/optional_parameters.rs, used by mod.rs):
disableoutputsubstitution, (maxadditionalfeecontribution,
additionalfeeoutputindex) as an optional pair, and minfeerate. -/
structure Params where
  disable_output_substitution : Bool := false
  additional_fee_contribution : Option (Nat × Nat) := none
  min_feerate : Nat := 0
deriving DecidableEq, Repr

/-- error.rs InternalRequestError variants reachable from the functions
embedded here. -/
inductive RequestErrorKind where
  | MissingPayment
  | OriginalPsbtNotBroadcastable
  | PrevTxOut
  | InputTypeError
deriving DecidableEq, Repr

/-- receive::Error: BadRequest for protocol violations, Server for
callback / infrastructure failures (the boxed error is kept as a string). -/
inductive PjError where
  | badRequest (e : RequestErrorKind)
  | server (msg : String)
deriving DecidableEq, Repr

/-- error.rs InternalSelectionError. -/
inductive SelectionError where
  | Empty
  | NotFound
  | CannotAfford
deriving DecidableEq, Repr

/-- PsbtExt::input_pairs (crate::psbt): the inputs of the unsigned
transaction zipped with the psbt input metadata. -/
def input_pairs (p : Psbt) : List (TxIn × PsbtInput) :=
  p.unsigned_tx.input.zip p.inputs

/-- Modelled from the spec: PsbtExt::previous_txout (crate::psbt, not under
src/) resolves the txout a psbt input spends "from witness_utxo or
non_witness_utxo" (spec section 4.3). -/
def previous_txout (txin : TxIn) (pin : PsbtInput) : Option TxOut :=
  match pin.witness_utxo with
  | some t => some t
  | none => pin.non_witness_utxo.bind fun tx => tx.output.get? txin.previous_output.vout

/-- Amount::MAX_MONEY in satoshis. -/
def MAX_MONEY : Nat := 2100000000000000

/-- Minimum of a list of Nat, as an Option (models Iterator::min). -/
def minNat? : List Nat → Option Nat
  | [] => none
  | a :: as =>
    match minNat? as with
    | none => some a
    | some b => some (min a b)

/-- Weight * FeeRate of rust-bitcoin: weight in wu times rate in sat/kwu,
floor-divided by 1000, giving sats. -/
def mulFee (weight rate : Nat) : Nat := weight * rate / 1000

/-- Total output value of a psbt's unsigned transaction, as folded by
do_coin_selection. -/
def total_output_value (p : Psbt) : Nat :=
  p.unsigned_tx.output.foldl (fun acc o => acc + o.value) 0

/-- insert of Vec::insert: place the element at the given index, shifting
the tail. Rust panics when the index exceeds the length; this embedding
appends in that (never exercised) case, and every theorem about
insertion carries the index bound the source's gen_range guarantees. -/
def insertAt : List α → Nat → α → List α
  | l, 0, a => a :: l
  | [], _ + 1, a => [a]
  | x :: xs, n + 1, a => x :: insertAt xs n a

/-- Add v sats to the output at index i (contribute_*_input). Rust panics
when i is out of bounds; the embedding is a no-op there. -/
def addToOutput (l : List TxOut) (i : Nat) (v : Nat) : List TxOut :=
  match l.get? i with
  | none => l
  | some o => l.set i { o with value := o.value + v }

/-- Subtract v sats from the output at index i (apply_fee). Rust panics
when i is out of bounds or the value underflows; the embedding is a no-op
resp. truncates at zero. -/
def subFromOutput (l : List TxOut) (i : Nat) (v : Nat) : List TxOut :=
  match l.get? i with
  | none => l
  | some o => l.set i { o with value := o.value - v }

/-- Typestate 5, receive/mod.rs: OutputsUnknown. -/
structure OutputsUnknown where
  psbt : Psbt
  params : Params
deriving DecidableEq, Repr

/-- Typestate 6, receive/mod.rs: WantsOutputs. -/
structure WantsOutputs where
  original_psbt : Psbt
  payjoin_psbt : Psbt
  params : Params
  owned_vouts : List Nat
deriving DecidableEq, Repr

/-- Typestate 7, receive/mod.rs: WantsInputs. -/
structure WantsInputs where
  original_psbt : Psbt
  payjoin_psbt : Psbt
  params : Params
  owned_vouts : List Nat
deriving DecidableEq, Repr

/-- Typestate 8, receive/mod.rs: ProvisionalProposal. -/
structure ProvisionalProposal where
  original_psbt : Psbt
  payjoin_psbt : Psbt
  params : Params
  owned_vouts : List Nat
deriving DecidableEq, Repr

/-- Terminal state, receive/mod.rs: PayjoinProposal. -/
structure PayjoinProposal where
  payjoin_psbt : Psbt
  params : Params
  owned_vouts : List Nat
deriving DecidableEq, Repr

/-- The enumerate-filter of OutputsUnknown::identify_receiver_outputs:
collect the indices (starting at i) of outputs whose script the
is_receiver_output callback accepts, propagating the first callback
error. -/
def collectOwnedVouts (is_receiver_output : Nat → Except PjError Bool) :
    List TxOut → Nat → Except PjError (List Nat)
  | [], _ => .ok []
  | o :: os, i =>
    match is_receiver_output o.script_pubkey with
    | .error e => .error e
    | .ok b =>
      match collectOwnedVouts is_receiver_output os (i + 1) with
      | .error e => .error e
      | .ok rest => .ok (if b then i :: rest else rest)

/-- OutputsUnknown::identify_receiver_outputs (receive/mod.rs). -/
def identify_receiver_outputs (s : OutputsUnknown)
    (is_receiver_output : Nat → Except PjError Bool) :
    Except PjError WantsOutputs :=
  match collectOwnedVouts is_receiver_output s.psbt.unsigned_tx.output 0 with
  | .error e => .error e
  | .ok owned_vouts =>
    if owned_vouts.isEmpty then
      .error (.badRequest .MissingPayment)
    else
      .ok { original_psbt := s.psbt, payjoin_psbt := s.psbt,
            params := s.params, owned_vouts := owned_vouts }

/-- The replacement loop of WantsOutputs::try_substitute_receiver_outputs:
walk the current outputs with their indices; at a receiver-owned index
take the next replacement (erroring when the replacements run short), at
a sender index keep the original output. Returns the rebuilt prefix and
the unconsumed replacements (which the caller appends). -/
def substituteOutputs (owned : List Nat) :
    List TxOut → Nat → List TxOut → Except PjError (List TxOut × List TxOut)
  | [], _, repl => .ok ([], repl)
  | o :: os, i, repl =>
    if i ∈ owned then
      match repl with
      | [] => .error (.server "Not enough outputs")
      | r :: rs =>
        match substituteOutputs owned os (i + 1) rs with
        | .error e => .error e
        | .ok (built, rem) => .ok (r :: built, rem)
    else
      match substituteOutputs owned os (i + 1) repl with
      | .error e => .error e
      | .ok (built, rem) => .ok (o :: built, rem)

/-- WantsOutputs::try_substitute_receiver_outputs (receive/mod.rs). -/
def try_substitute_receiver_outputs (wo : WantsOutputs)
    (outputs : Option (List TxOut)) : Except PjError WantsInputs :=
  match outputs with
  | some o =>
    if wo.params.disable_output_substitution then
      .error (.server "Output substitution is disabled.")
    else
      match substituteOutputs wo.owned_vouts wo.payjoin_psbt.unsigned_tx.output 0 o with
      | .error e => .error e
      | .ok (built, rem) =>
        .ok { original_psbt := wo.original_psbt,
              payjoin_psbt :=
                { wo.payjoin_psbt with
                  unsigned_tx := { wo.payjoin_psbt.unsigned_tx with output := built ++ rem } },
              params := wo.params, owned_vouts := wo.owned_vouts }
  | none =>
    .ok { original_psbt := wo.original_psbt, payjoin_psbt := wo.payjoin_psbt,
          params := wo.params, owned_vouts := wo.owned_vouts }

/-- WantsOutputs::try_substitute_receiver_output (receive/mod.rs). The
generate_script callback is passed by its one observed result. The source
indexes output[owned_vouts[0]] before anything else and panics when
owned_vouts is empty or the index is out of range (ruled out by the
pipeline invariant, claim C9); getD embeds the in-range behaviour. -/
def try_substitute_receiver_output (wo : WantsOutputs)
    (generate_script : Except PjError Nat) : Except PjError WantsInputs :=
  let output_value :=
    (wo.payjoin_psbt.unsigned_tx.output.getD (wo.owned_vouts.getD 0 0) ⟨0, 0⟩).value
  match generate_script with
  | .error e => .error e
  | .ok s =>
    try_substitute_receiver_outputs wo (some [{ value := output_value, script_pubkey := s }])

/-- Total output value of the payjoin psbt minus that of the original, the
quantity do_coin_selection takes min(0, -) of. Signed, as the Rust
subtraction is on amounts (it panics on underflow; the claims only
concern the non-negative case). -/
def outputSurplus (wi : WantsInputs) : Int :=
  (total_output_value wi.payjoin_psbt : Int) - (total_output_value wi.original_psbt : Int)

/-- The accumulation loop of WantsInputs::do_coin_selection: push
candidates and stop as soon as the accumulated sats reach min_amount. -/
def selLoop : List (Nat × OutPoint) → List OutPoint → Int → Int →
    Except SelectionError (List OutPoint)
  | [], _, _, _ => .error .CannotAfford
  | (v, op) :: rest, sel, acc, min_amount =>
    let sel2 := sel ++ [op]
    let acc2 := acc + (v : Int)
    if min_amount ≤ acc2 then .ok sel2 else selLoop rest sel2 acc2 min_amount

/-- WantsInputs::do_coin_selection (receive/mod.rs). Note the source
computes min(0, output_amount - original_output_amount) — not max — so
the threshold is never positive. -/
def do_coin_selection (wi : WantsInputs) (candidate_inputs : List (Nat × OutPoint)) :
    Except SelectionError (List OutPoint) :=
  let min_input_amount : Int := min 0 (outputSurplus wi)
  selLoop candidate_inputs [] 0 min_input_amount

/-- min of the payjoin psbt's output values, Amount::MAX_MONEY when there
are none (avoid_uih). -/
def min_original_out_sats (wi : WantsInputs) : Nat :=
  (minNat? (wi.payjoin_psbt.unsigned_tx.output.map (·.value))).getD MAX_MONEY

/-- min of the payjoin psbt's resolved input values, Amount::MAX_MONEY
when none resolve (avoid_uih). -/
def min_original_in_sats (wi : WantsInputs) : Nat :=
  (minNat? ((input_pairs wi.payjoin_psbt).filterMap
    fun x => (previous_txout x.1 x.2).map (·.value))).getD MAX_MONEY

/-- Value of the first owned vout (avoid_uih). The source indexes
output[owned_vouts[0]] and panics when invalid (ruled out by the pipeline
invariant, claim C9); getD embeds the in-range behaviour. -/
def prior_payment_sats (wi : WantsInputs) : Nat :=
  (wi.payjoin_psbt.unsigned_tx.output.getD (wi.owned_vouts.getD 0 0) ⟨0, 0⟩).value

/-- The candidate scan of WantsInputs::avoid_uih: return the first
candidate whose min(min_in, v) exceeds min(min_out, prior + v). -/
def uihLoop (minIn minOut prior : Nat) :
    List (Nat × OutPoint) → Except SelectionError (List OutPoint)
  | [] => .error .NotFound
  | (v, op) :: rest =>
    if min minOut (prior + v) < min minIn v then .ok [op]
    else uihLoop minIn minOut prior rest

/-- WantsInputs::avoid_uih (receive/mod.rs). -/
def avoid_uih (wi : WantsInputs) (candidate_inputs : List (Nat × OutPoint)) :
    Except SelectionError (List OutPoint) :=
  uihLoop (min_original_in_sats wi) (min_original_out_sats wi)
    (prior_payment_sats wi) candidate_inputs

/-- WantsInputs::select_first_candidate (receive/mod.rs). -/
def select_first_candidate (_wi : WantsInputs)
    (candidate_inputs : List (Nat × OutPoint)) :
    Except SelectionError (List OutPoint) :=
  match candidate_inputs with
  | [] => .error .NotFound
  | (_, op) :: _ => .ok [op]

/-- WantsInputs::try_preserving_privacy (receive/mod.rs). The branch is on
the length of the psbt metadata output list, exactly as in the source. -/
def try_preserving_privacy (wi : WantsInputs)
    (candidate_inputs : List (Nat × OutPoint)) :
    Except SelectionError (List OutPoint) :=
  if candidate_inputs.isEmpty then .error .Empty
  else if 2 < wi.payjoin_psbt.outputs.length then do_coin_selection wi candidate_inputs
  else if wi.payjoin_psbt.outputs.length = 2 then avoid_uih wi candidate_inputs
  else select_first_candidate wi candidate_inputs

/-- nSequence copied onto a contributed input: the sequence of the payjoin
psbt's first input, Sequence::default() when there is none. -/
def original_sequence_of (wi : WantsInputs) : Nat :=
  ((wi.payjoin_psbt.unsigned_tx.input.head?).map (·.sequence)).getD defaultSequence

/-- WantsInputs::contribute_witness_input (receive/mod.rs).
vout_to_augment stands for the element owned_vouts.choose drew (the
source's expect panics when owned_vouts is empty), index for the draw
from gen_range(0..=input_count); theorems carry the corresponding
membership and bound hypotheses. -/
def contribute_witness_input (wi : WantsInputs) (txo : TxOut) (outpoint : OutPoint)
    (vout_to_augment index : Nat) : ProvisionalProposal :=
  let new_psbt_input : PsbtInput := { witness_utxo := some txo }
  let new_txin : TxIn :=
    { previous_output := outpoint, sequence := original_sequence_of wi }
  { original_psbt := wi.original_psbt,
    payjoin_psbt :=
      { unsigned_tx :=
          { input := insertAt wi.payjoin_psbt.unsigned_tx.input index new_txin,
            output := addToOutput wi.payjoin_psbt.unsigned_tx.output vout_to_augment txo.value },
        inputs := insertAt wi.payjoin_psbt.inputs index new_psbt_input,
        outputs := wi.payjoin_psbt.outputs },
    params := wi.params, owned_vouts := wi.owned_vouts }

/-- WantsInputs::contribute_non_witness_input (receive/mod.rs). The value
credited is tx.output[outpoint.vout] (Rust panics when out of range; getD
embeds the in-range behaviour). -/
def contribute_non_witness_input (wi : WantsInputs) (tx : Transaction) (outpoint : OutPoint)
    (vout_to_augment index : Nat) : ProvisionalProposal :=
  let txo_value := (tx.output.getD outpoint.vout ⟨0, 0⟩).value
  let new_psbt_input : PsbtInput := { non_witness_utxo := some tx }
  let new_txin : TxIn :=
    { previous_output := outpoint, sequence := original_sequence_of wi }
  { original_psbt := wi.original_psbt,
    payjoin_psbt :=
      { unsigned_tx :=
          { input := insertAt wi.payjoin_psbt.unsigned_tx.input index new_txin,
            output := addToOutput wi.payjoin_psbt.unsigned_tx.output vout_to_augment txo_value },
        inputs := insertAt wi.payjoin_psbt.inputs index new_psbt_input,
        outputs := wi.payjoin_psbt.outputs },
    params := wi.params, owned_vouts := wi.owned_vouts }

/-- WantsInputs::skip_contribute_inputs (receive/mod.rs). -/
def skip_contribute_inputs (wi : WantsInputs) : ProvisionalProposal :=
  { original_psbt := wi.original_psbt, payjoin_psbt := wi.payjoin_psbt,
    params := wi.params, owned_vouts := wi.owned_vouts }

/-- The streaming match of ProvisionalProposal::sender_input_indexes over
outpoint lists: walk the payjoin outpoints with a counter, peeking the
original outpoints; on a match record the counter and advance the
original list. -/
def siiGo : List OutPoint → List OutPoint → Nat → List Nat
  | _, [], _ => []
  | orig, p :: ps, i =>
    match orig with
    | [] => siiGo [] ps (i + 1)
    | o :: os =>
      if p = o then i :: siiGo os ps (i + 1)
      else siiGo (o :: os) ps (i + 1)

/-- ProvisionalProposal::sender_input_indexes (receive/mod.rs): both psbts
are walked through input_pairs, comparing txin.previous_output. -/
def sender_input_indexes (pp : ProvisionalProposal) : List Nat :=
  siiGo ((input_pairs pp.original_psbt).map fun x => x.1.previous_output)
    ((input_pairs pp.payjoin_psbt).map fun x => x.1.previous_output) 0

/-- The capped additional fee of ProvisionalProposal::apply_fee:
contribution_weight * min_feerate, replaced by the sender's
maxadditionalfeecontribution (default zero) as soon as it reaches it. -/
def cappedAdditionalFee (pp : ProvisionalProposal) (mfr w : Nat) : Nat :=
  let fee0 := mulFee w mfr
  let max_afc := (pp.params.additional_fee_contribution.getD (0, 0)).1
  if max_afc ≤ fee0 then max_afc else fee0

/-- The pure tail of ProvisionalProposal::apply_fee once the effective
min feerate and the contribution weight are known: when the capped fee is
positive and the sender declared an additional-fee output that is not
receiver-owned, subtract the fee from that output. -/
def apply_fee_core (pp : ProvisionalProposal) (mfr w : Nat) : ProvisionalProposal :=
  let additional_fee := cappedAdditionalFee pp mfr w
  if 0 < additional_fee then
    match pp.params.additional_fee_contribution with
    | some (_, idx) =>
      if idx ∈ pp.owned_vouts then pp
      else
        { pp with
          payjoin_psbt :=
            { pp.payjoin_psbt with
              unsigned_tx :=
                { pp.payjoin_psbt.unsigned_tx with
                  output := subFromOutput pp.payjoin_psbt.unsigned_tx.output idx additional_fee } } }
    | none => pp
  else pp

/-- ProvisionalProposal::apply_fee (receive/mod.rs). The effective
min_feerate is max(caller value or FeeRate::MIN = 0, params.min_feerate).
input_weight stands for the composition previous_txout /
InputType::from_spent_input / expected_input_weight applied to the first
input pair (crate::psbt and crate::input_type are outside src/); it
yields the contribution weight or one of the two error variants the
source maps those failures to. -/
def apply_fee (pp : ProvisionalProposal) (min_feerate : Option Nat)
    (input_weight : TxIn → PsbtInput → Except RequestErrorKind Nat) :
    Except RequestErrorKind ProvisionalProposal :=
  let mfr := max (min_feerate.getD 0) pp.params.min_feerate
  match input_pairs pp.payjoin_psbt with
  | [] => .error .OriginalPsbtNotBroadcastable
  | (txin, psbtin) :: _ =>
    match input_weight txin psbtin with
    | .error e => .error e
    | .ok w => .ok (apply_fee_core pp mfr w)

/-- Output-side scrub of ProvisionalProposal::prepare_psbt. -/
def clearOutput (o : PsbtOutput) : PsbtOutput :=
  { o with bip32_derivation := [], tap_key_origins := [], tap_internal_key := none }

/-- Input-side scrub applied to every input in prepare_psbt. -/
def clearInputGeneral (i : PsbtInput) : PsbtInput :=
  { i with bip32_derivation := [], tap_key_origins := [], tap_internal_key := none,
           part_sigs := [] }

/-- Extra scrub applied to sender inputs in prepare_psbt. -/
def clearSenderInput (i : PsbtInput) : PsbtInput :=
  { i with non_witness_utxo := none, witness_utxo := none, final_script_sig := none,
           final_script_witness := none, tap_key_sig := none }

/-- One step of the sender-input loop of prepare_psbt: scrub the input at
index i (in range for every index the streaming match yields). -/
def clearAt (l : List PsbtInput) (i : Nat) : List PsbtInput :=
  l.set i (clearSenderInput (l.getD i default))

/-- ProvisionalProposal::prepare_psbt (receive/mod.rs): install the
wallet-processed psbt, scrub every output and every input, then strip
UTXO and finalization data from each sender input. -/
def prepare_psbt (pp : ProvisionalProposal) (processed_psbt : Psbt) : PayjoinProposal :=
  let p1 : Psbt :=
    { processed_psbt with
      outputs := processed_psbt.outputs.map clearOutput,
      inputs := processed_psbt.inputs.map clearInputGeneral }
  let pp1 : ProvisionalProposal := { pp with payjoin_psbt := p1 }
  let inputs2 := (sender_input_indexes pp1).foldl clearAt p1.inputs
  { payjoin_psbt := { p1 with inputs := inputs2 },
    params := pp.params, owned_vouts := pp.owned_vouts }

/-- One step of the pre-sign loop of finalize_proposal: clear
finalization fields of the input at index i. -/
def clearFinalAt (l : List PsbtInput) (i : Nat) : List PsbtInput :=
  l.set i
    { l.getD i default with
      final_script_sig := none, final_script_witness := none, tap_key_sig := none }

/-- The pre-sign sender-input loop at the top of
ProvisionalProposal::finalize_proposal. -/
def clear_sender_sigs (pp : ProvisionalProposal) : ProvisionalProposal :=
  { pp with
    payjoin_psbt :=
      { pp.payjoin_psbt with
        inputs := (sender_input_indexes pp).foldl clearFinalAt pp.payjoin_psbt.inputs } }

/-- ProvisionalProposal::finalize_proposal (receive/mod.rs): pre-sign
scrub, apply_fee, wallet callback, prepare_psbt. -/
def finalize_proposal (pp : ProvisionalProposal)
    (wallet_process_psbt : Psbt → Except PjError Psbt)
    (min_feerate : Option Nat)
    (input_weight : TxIn → PsbtInput → Except RequestErrorKind Nat) :
    Except PjError PayjoinProposal :=
  let pp1 := clear_sender_sigs pp
  match apply_fee pp1 min_feerate input_weight with
  | .error e => .error (.badRequest e)
  | .ok pp2 =>
    match wallet_process_psbt pp2.payjoin_psbt with
    | .error e => .error e
    | .ok psbt => .ok (prepare_psbt pp2 psbt)

/-- The union of the pipeline states from state 6 on, for stating
reachability invariants. -/
inductive Stage where
  | wantsOutputs (s : WantsOutputs)
  | wantsInputs (s : WantsInputs)
  | provisional (s : ProvisionalProposal)
  | payjoin (s : PayjoinProposal)

/-- One successful pipeline operation from state 6 on. The random draws
of the contribute steps range over all values (a superset of what the RNG
produces). The prepare step carries the wallet_process_psbt contract of
spec section 6 — the wallet only signs and finalizes receiver inputs, so
it preserves the unsigned transaction's output list length. -/
inductive PipeStep : Stage → Stage → Prop where
  | subst_outputs (wo : WantsOutputs) (outs : Option (List TxOut)) (wi : WantsInputs) :
      try_substitute_receiver_outputs wo outs = .ok wi →
      PipeStep (.wantsOutputs wo) (.wantsInputs wi)
  | subst_output (wo : WantsOutputs) (gen : Except PjError Nat) (wi : WantsInputs) :
      try_substitute_receiver_output wo gen = .ok wi →
      PipeStep (.wantsOutputs wo) (.wantsInputs wi)
  | contrib_witness (wi : WantsInputs) (txo : TxOut) (op : OutPoint) (v j : Nat) :
      PipeStep (.wantsInputs wi) (.provisional (contribute_witness_input wi txo op v j))
  | contrib_non_witness (wi : WantsInputs) (tx : Transaction) (op : OutPoint) (v j : Nat) :
      PipeStep (.wantsInputs wi) (.provisional (contribute_non_witness_input wi tx op v j))
  | skip_inputs (wi : WantsInputs) :
      PipeStep (.wantsInputs wi) (.provisional (skip_contribute_inputs wi))
  | clear_sigs (pp : ProvisionalProposal) :
      PipeStep (.provisional pp) (.provisional (clear_sender_sigs pp))
  | fee (pp : ProvisionalProposal) (mfr : Option Nat)
      (iw : TxIn → PsbtInput → Except RequestErrorKind Nat) (pp2 : ProvisionalProposal) :
      apply_fee pp mfr iw = .ok pp2 →
      PipeStep (.provisional pp) (.provisional pp2)
  | prepare (pp : ProvisionalProposal) (processed : Psbt) :
      processed.unsigned_tx.output.length = pp.payjoin_psbt.unsigned_tx.output.length →
      PipeStep (.provisional pp) (.payjoin (prepare_psbt pp processed))

/-- Reachability along successful pipeline operations. -/
def Reaches : Stage → Stage → Prop := Relation.ReflTransGen PipeStep

/-- The original psbt a stage still carries is p (trivially true at the
terminal stage, which drops it). -/
def originalIs (p : Psbt) : Stage → Prop
  | .wantsOutputs s => s.original_psbt = p
  | .wantsInputs s => s.original_psbt = p
  | .provisional s => s.original_psbt = p
  | .payjoin _ => True

/-- The sender-input scrub of prepare_psbt, as a predicate. -/
def SenderScrubbed (x : PsbtInput) : Prop :=
  x.non_witness_utxo = none ∧ x.witness_utxo = none ∧ x.final_script_sig = none ∧
  x.final_script_witness = none ∧ x.tap_key_sig = none

/-- The all-inputs scrub of prepare_psbt, as a predicate. -/
def GeneralScrubbed (x : PsbtInput) : Prop :=
  x.bip32_derivation = [] ∧ x.tap_key_origins = [] ∧ x.tap_internal_key = none ∧
  x.part_sigs = []

/-- The output scrub of prepare_psbt, as a predicate. -/
def OutputScrubbed (o : PsbtOutput) : Prop :=
  o.bip32_derivation = [] ∧ o.tap_key_origins = [] ∧ o.tap_internal_key = none

/-- The owned_vouts list of a stage. -/
def ownedOf : Stage → List Nat
  | .wantsOutputs s => s.owned_vouts
  | .wantsInputs s => s.owned_vouts
  | .provisional s => s.owned_vouts
  | .payjoin s => s.owned_vouts

/-- The payjoin psbt's unsigned transaction output list of a stage. -/
def outListOf : Stage → List TxOut
  | .wantsOutputs s => s.payjoin_psbt.unsigned_tx.output
  | .wantsInputs s => s.payjoin_psbt.unsigned_tx.output
  | .provisional s => s.payjoin_psbt.unsigned_tx.output
  | .payjoin s => s.payjoin_psbt.unsigned_tx.output

/-- The owned-vout invariant threaded from identify_receiver_outputs on:
owned_vouts is non-empty and indexes into the payjoin output list. -/
def StageInv (st : Stage) : Prop :=
  ownedOf st ≠ [] ∧ ∀ v ∈ ownedOf st, v < (outListOf st).length

/-- Concrete two-input / two-output psbt used to witness the theorems:
output 1 pays the receiver, output 0 is the sender's change. -/
def exPsbt : Psbt :=
  { unsigned_tx :=
      { input := [{ previous_output := ⟨1, 0⟩, sequence := 5 },
                  { previous_output := ⟨2, 1⟩, sequence := 5 }],
        output := [{ value := 500, script_pubkey := 10 },
                   { value := 300, script_pubkey := 11 }] },
    inputs := [{ witness_utxo := some { value := 600, script_pubkey := 20 } },
               { witness_utxo := some { value := 400, script_pubkey := 21 } }],
    outputs := [{}, {}] }

/-- Sender params declaring maxadditionalfeecontribution = 100 at
additionalfeeoutputindex = 0. -/
def exParams : Params := { additional_fee_contribution := some (100, 0) }

/-- Sender params with disableoutputsubstitution set. -/
def exParamsDisabled : Params := { disable_output_substitution := true }

/-- Concrete OutputsUnknown state. -/
def exOutputsUnknown : OutputsUnknown := { psbt := exPsbt, params := exParams }

/-- Concrete WantsOutputs state with substitution disabled. -/
def exWantsOutputsDisabled : WantsOutputs :=
  { original_psbt := exPsbt, payjoin_psbt := exPsbt, params := exParamsDisabled,
    owned_vouts := [1] }

/-- Callback recognizing script 11 (output 1 of exPsbt) as the receiver's. -/
def exIsReceiverOutput : Nat → Except PjError Bool :=
  fun s => .ok (decide (s = 11))

/-- Concrete WantsOutputs state, as identify_receiver_outputs builds it
from exPsbt with exIsReceiverOutput. -/
def exWantsOutputs : WantsOutputs :=
  { original_psbt := exPsbt, payjoin_psbt := exPsbt, params := exParams,
    owned_vouts := [1] }

/-- Concrete WantsInputs state. -/
def exWantsInputs : WantsInputs :=
  { original_psbt := exPsbt, payjoin_psbt := exPsbt, params := exParams,
    owned_vouts := [1] }

/-- Concrete ProvisionalProposal state. -/
def exProvisional : ProvisionalProposal :=
  { original_psbt := exPsbt, payjoin_psbt := exPsbt, params := exParams,
    owned_vouts := [1] }

/-- Constant input-weight oracle standing for expected_input_weight of the
receiver's input type (272 vbytes times 4, in wu times 1000 to keep the
sat/kwu division exact). -/
def exInputWeight : TxIn → PsbtInput → Except RequestErrorKind Nat :=
  fun _ _ => .ok 272000

/-- WantsInputs state exhibiting the do_coin_selection threshold slip:
the payjoin outputs total 600 sats while the original outputs total 100,
so the receiver must contribute at least 500 sats. -/
def exWantsInputsC7 : WantsInputs :=
  { original_psbt :=
      { unsigned_tx := { input := [{ previous_output := ⟨1, 0⟩, sequence := 5 }],
                         output := [{ value := 100, script_pubkey := 10 }] },
        inputs := [{}], outputs := [{}] },
    payjoin_psbt :=
      { unsigned_tx := { input := [{ previous_output := ⟨1, 0⟩, sequence := 5 }],
                         output := [{ value := 600, script_pubkey := 10 }] },
        inputs := [{}], outputs := [{}] },
    params := {}, owned_vouts := [0] }

/-- Candidate list for the do_coin_selection counterexample: a 10-sat coin
iterated first, a 1000-sat coin second. -/
def exCandsC7 : List (Nat × OutPoint) := [(10, ⟨7, 0⟩), (1000, ⟨8, 0⟩)]

/-- exProvisional after apply_fee with caller min_feerate 1000 sat/kwu:
the capped 100-sat contribution is deducted from output 0. -/
def exProvisionalAfterFee : ProvisionalProposal :=
  { original_psbt := exPsbt,
    payjoin_psbt :=
      { unsigned_tx :=
          { input := exPsbt.unsigned_tx.input,
            output := [{ value := 400, script_pubkey := 10 },
                       { value := 300, script_pubkey := 11 }] },
        inputs := exPsbt.inputs, outputs := exPsbt.outputs },
    params := exParams, owned_vouts := [1] }

/-- What contributing one receiver input does to a WantsInputs state:
exactly one input is inserted, at the same index j of both the psbt input
metadata list and the unsigned transaction input list, carrying the given
outpoint, the sequence of the sender's first input (default when there is
none) and the given psbt metadata; the credited sats are added to the
one owned output v and every other output and every pre-existing input is
unchanged. -/
def ContribSpec (wi : WantsInputs) (pp : ProvisionalProposal) (op : OutPoint)
    (v j credited : Nat) (npi : PsbtInput) : Prop :=
  pp.payjoin_psbt.unsigned_tx.input.length =
    wi.payjoin_psbt.unsigned_tx.input.length + 1 ∧
  pp.payjoin_psbt.inputs.length = wi.payjoin_psbt.inputs.length + 1 ∧
  pp.payjoin_psbt.unsigned_tx.input.getD j ⟨⟨0, 0⟩, 0⟩ =
    { previous_output := op,
      sequence :=
        ((wi.original_psbt.unsigned_tx.input.head?).map (·.sequence)).getD
          defaultSequence } ∧
  pp.payjoin_psbt.inputs.getD j default = npi ∧
  (∀ i, i < j → pp.payjoin_psbt.unsigned_tx.input.getD i ⟨⟨0, 0⟩, 0⟩ =
    wi.payjoin_psbt.unsigned_tx.input.getD i ⟨⟨0, 0⟩, 0⟩) ∧
  (∀ i, j ≤ i → i < wi.payjoin_psbt.unsigned_tx.input.length →
    pp.payjoin_psbt.unsigned_tx.input.getD (i + 1) ⟨⟨0, 0⟩, 0⟩ =
      wi.payjoin_psbt.unsigned_tx.input.getD i ⟨⟨0, 0⟩, 0⟩) ∧
  (∀ i, i < j → pp.payjoin_psbt.inputs.getD i default =
    wi.payjoin_psbt.inputs.getD i default) ∧
  (∀ i, j ≤ i → i < wi.payjoin_psbt.inputs.length →
    pp.payjoin_psbt.inputs.getD (i + 1) default =
      wi.payjoin_psbt.inputs.getD i default) ∧
  (pp.payjoin_psbt.unsigned_tx.output.getD v ⟨0, 0⟩).value =
    (wi.payjoin_psbt.unsigned_tx.output.getD v ⟨0, 0⟩).value + credited ∧
  (pp.payjoin_psbt.unsigned_tx.output.getD v ⟨0, 0⟩).script_pubkey =
    (wi.payjoin_psbt.unsigned_tx.output.getD v ⟨0, 0⟩).script_pubkey ∧
  (∀ i, i ≠ v → pp.payjoin_psbt.unsigned_tx.output.getD i ⟨0, 0⟩ =
    wi.payjoin_psbt.unsigned_tx.output.getD i ⟨0, 0⟩) ∧
  pp.payjoin_psbt.unsigned_tx.output.length =
    wi.payjoin_psbt.unsigned_tx.output.length ∧
  pp.payjoin_psbt.outputs = wi.payjoin_psbt.outputs ∧
  v ∈ wi.owned_vouts ∧ j ≤ wi.payjoin_psbt.unsigned_tx.input.length

/-- Sender-input preservation after one contribution at index j: every
sender outpoint occurs exactly once among the payjoin inputs, the input
carrying it keeps the sender's nSequence, and sender_input_indexes
returns exactly the positions of the sender inputs — explicitly, the
range of original indices shifted across the insertion point. -/
def C2Spec (wi : WantsInputs) (pp : ProvisionalProposal) (j : Nat) : Prop :=
  (∀ t ∈ wi.original_psbt.unsigned_tx.input,
    (pp.payjoin_psbt.unsigned_tx.input.map (·.previous_output)).count
      t.previous_output = 1) ∧
  (∀ t ∈ wi.original_psbt.unsigned_tx.input,
    ∀ u ∈ pp.payjoin_psbt.unsigned_tx.input,
      u.previous_output = t.previous_output → u.sequence = t.sequence) ∧
  sender_input_indexes pp =
    (List.range wi.original_psbt.unsigned_tx.input.length).map
      (fun k => if k < j then k else k + 1) ∧
  (∀ i, i ∈ sender_input_indexes pp ↔
    (i < pp.payjoin_psbt.unsigned_tx.input.length ∧
      (pp.payjoin_psbt.unsigned_tx.input.map (·.previous_output)).getD i ⟨0, 0⟩ ∈
        wi.original_psbt.unsigned_tx.input.map (·.previous_output)))

end PayjoinReceive

namespace PayjoinReceive

theorem insertAt_length (l : List α) (j : Nat) (a : α) :
    (insertAt l j a).length = l.length + 1 := by
  induction l generalizing j with
  | nil => cases j <;> rfl
  | cons x xs ih =>
    cases j with
    | zero => rfl
    | succ n => simp [insertAt, ih]

theorem map_insertAt (f : α → β) (l : List α) (j : Nat) (a : α) :
    (insertAt l j a).map f = insertAt (l.map f) j (f a) := by
  induction l generalizing j with
  | nil => cases j <;> rfl
  | cons x xs ih =>
    cases j with
    | zero => rfl
    | succ n => simp [insertAt, ih]

theorem perm_insertAt (l : List α) (j : Nat) (a : α) :
    (insertAt l j a).Perm (a :: l) := by
  induction l generalizing j with
  | nil => cases j <;> exact List.Perm.refl _
  | cons x xs ih =>
    cases j with
    | zero => exact List.Perm.refl _
    | succ n =>
      exact (List.Perm.cons x (ih n)).trans (List.Perm.swap a x xs)

theorem getD_insertAt_lt (l : List α) (j : Nat) (a : α) (i : Nat) (d : α)
    (hij : i < j) (hj : j ≤ l.length) :
    (insertAt l j a).getD i d = l.getD i d := by
  induction l generalizing i j with
  | nil => simp at hj; omega
  | cons x xs ih =>
    cases j with
    | zero => omega
    | succ n =>
      cases i with
      | zero => rfl
      | succ m =>
        have h1 : m < n := by omega
        have h2 : n ≤ xs.length := by simpa using hj
        simpa [insertAt, List.getD_cons_succ] using ih n m h1 h2

theorem getD_insertAt_self (l : List α) (j : Nat) (a : α) (d : α)
    (hj : j ≤ l.length) :
    (insertAt l j a).getD j d = a := by
  induction l generalizing j with
  | nil =>
    have : j = 0 := by simpa using hj
    subst this
    rfl
  | cons x xs ih =>
    cases j with
    | zero => rfl
    | succ n =>
      have h2 : n ≤ xs.length := by simpa using hj
      simpa [insertAt, List.getD_cons_succ] using ih n h2

theorem getD_insertAt_succ (l : List α) (j : Nat) (a : α) (i : Nat) (d : α)
    (hj : j ≤ i) :
    (insertAt l j a).getD (i + 1) d = l.getD i d := by
  induction l generalizing i j with
  | nil => cases j <;> cases i <;> rfl
  | cons x xs ih =>
    cases j with
    | zero => rfl
    | succ n =>
      cases i with
      | zero => omega
      | succ m =>
        have h1 : n ≤ m := by omega
        simpa [insertAt, List.getD_cons_succ] using ih n m h1

theorem getD_mem_of_lt (l : List α) (i : Nat) (d : α) (h : i < l.length) :
    l.getD i d ∈ l := by
  induction l generalizing i with
  | nil => simp at h
  | cons x xs ih =>
    cases i with
    | zero => exact List.mem_cons_self x xs
    | succ m =>
      have : m < xs.length := by simpa using h
      simpa [List.getD_cons_succ] using List.mem_cons_of_mem x (ih m this)

theorem siiGo_self (l : List OutPoint) (i : Nat) :
    siiGo l l i = (List.range l.length).map (i + ·) := by
  induction l generalizing i with
  | nil => rfl
  | cons o os ih =>
    simp only [siiGo, if_pos rfl, ih (i + 1)]
    rw [List.length_cons, List.range_succ_eq_map, List.map_cons, List.map_map]
    refine List.cons_eq_cons.mpr ⟨by omega, List.map_congr_left fun k _ => ?_⟩
    simp [Function.comp]
    omega

theorem siiGo_insertAt (l : List OutPoint) (j : Nat) (p : OutPoint) (i : Nat)
    (hj : j ≤ l.length) (hp : p ∉ l) :
    siiGo l (insertAt l j p) i =
      (List.range l.length).map (fun k => if k < j then i + k else i + k + 1) := by
  induction l generalizing j i with
  | nil =>
    have : j = 0 := by simpa using hj
    subst this
    rfl
  | cons o os ih =>
    cases j with
    | zero =>
      have hpo : p ≠ o := fun h => hp (h ▸ List.mem_cons_self o os)
      show (if p = o then i :: siiGo os (o :: os) (i + 1)
            else siiGo (o :: os) (o :: os) (i + 1)) = _
      rw [if_neg hpo, siiGo_self]
      refine List.map_congr_left fun k _ => ?_
      rw [if_neg (Nat.not_lt_zero k)]
      omega
    | succ n =>
      have hj2 : n ≤ os.length := by simpa using hj
      have hp2 : p ∉ os := fun h => hp (List.mem_cons_of_mem o h)
      simp only [insertAt, siiGo, if_pos rfl, ih n (i + 1) hj2 hp2]
      rw [List.length_cons, List.range_succ_eq_map, List.map_cons, List.map_map]
      refine List.cons_eq_cons.mpr ⟨?_, List.map_congr_left fun k _ => ?_⟩
      · rw [if_pos (Nat.succ_pos n)]
        omega
      · simp only [Function.comp, Nat.succ_eq_add_one]
        by_cases hkn : k < n
        · rw [if_pos hkn, if_pos (by omega : k + 1 < n + 1)]
          omega
        · rw [if_neg hkn, if_neg (by omega : ¬ k + 1 < n + 1)]
          omega

theorem siiGo_mem_lt (a b : List OutPoint) (k : Nat) (i : Nat)
    (h : i ∈ siiGo a b k) : i < k + b.length := by
  induction b generalizing a k with
  | nil => simp [siiGo] at h
  | cons p ps ih =>
    cases a with
    | nil =>
      simp only [siiGo] at h
      have := ih [] (k + 1) h
      simp at this ⊢
      omega
    | cons o os =>
      simp only [siiGo] at h
      by_cases hpo : p = o
      · rw [if_pos hpo] at h
        rcases List.mem_cons.mp h with h1 | h1
        · simp [h1]
        · have := ih os (k + 1) h1
          simp at this ⊢
          omega
      · rw [if_neg hpo] at h
        have := ih (o :: os) (k + 1) h
        simp at this ⊢
        omega

end PayjoinReceive

namespace PayjoinReceive

theorem getD_set_ne (l : List α) (i j : Nat) (a d : α) (h : i ≠ j) :
    (l.set i a).getD j d = l.getD j d := by
  simp [List.getD, List.getElem?_set_ne h]

theorem getD_set_self (l : List α) (i : Nat) (a d : α) (h : i < l.length) :
    (l.set i a).getD i d = a := by
  simp [List.getD, List.getElem?_set_self, h]

theorem getD_of_le (l : List α) (i : Nat) (d : α) (h : l.length ≤ i) :
    l.getD i d = d := by
  simp [List.getD, List.getElem?_eq_none h]

theorem input_pairs_prevs (p : Psbt) (h : p.inputs.length = p.unsigned_tx.input.length) :
    (input_pairs p).map (fun x => x.1.previous_output) =
      p.unsigned_tx.input.map (·.previous_output) := by
  unfold input_pairs
  rw [show (fun x : TxIn × PsbtInput => x.1.previous_output) =
        (fun t : TxIn => t.previous_output) ∘ Prod.fst from rfl]
  rw [← List.map_map, List.map_fst_zip]
  exact le_of_eq h.symm

theorem input_pairs_prevs_congr (p q : Psbt) (g : PsbtInput → PsbtInput)
    (h1 : q.unsigned_tx.input = p.unsigned_tx.input) (h2 : q.inputs = p.inputs.map g) :
    (input_pairs q).map (fun x => x.1.previous_output) =
      (input_pairs p).map (fun x => x.1.previous_output) := by
  unfold input_pairs
  rw [h1, h2, List.zip_map_right, List.map_map]
  rfl

theorem clearSenderInput_scrubbed (x : PsbtInput) : SenderScrubbed (clearSenderInput x) :=
  ⟨rfl, rfl, rfl, rfl, rfl⟩

theorem default_sender_scrubbed : SenderScrubbed default :=
  ⟨rfl, rfl, rfl, rfl, rfl⟩

theorem default_general_scrubbed : GeneralScrubbed default :=
  ⟨rfl, rfl, rfl, rfl⟩

theorem clearSenderInput_general (x : PsbtInput) (h : GeneralScrubbed x) :
    GeneralScrubbed (clearSenderInput x) := h

theorem clearInputGeneral_scrubbed (x : PsbtInput) : GeneralScrubbed (clearInputGeneral x) :=
  ⟨rfl, rfl, rfl, rfl⟩

theorem clearOutput_scrubbed (o : PsbtOutput) : OutputScrubbed (clearOutput o) :=
  ⟨rfl, rfl, rfl⟩

theorem foldl_clearAt_getD_pres (idxs : List Nat) (ins : List PsbtInput) (k : Nat)
    (h : SenderScrubbed (ins.getD k default)) :
    SenderScrubbed ((idxs.foldl clearAt ins).getD k default) := by
  induction idxs generalizing ins with
  | nil => exact h
  | cons j js ih =>
    have step : SenderScrubbed ((clearAt ins j).getD k default) := by
      by_cases hjk : j = k
      · subst hjk
        by_cases hlen : j < ins.length
        · unfold clearAt
          rw [getD_set_self _ _ _ _ hlen]
          exact clearSenderInput_scrubbed _
        · unfold clearAt
          rw [getD_of_le]
          · exact default_sender_scrubbed
          · rw [List.length_set]
            omega
      · unfold clearAt
        rw [getD_set_ne _ _ _ _ _ hjk]
        exact h
    exact ih (clearAt ins j) step

theorem foldl_clearAt_getD_mem (idxs : List Nat) (ins : List PsbtInput) (k : Nat)
    (hk : k ∈ idxs) :
    SenderScrubbed ((idxs.foldl clearAt ins).getD k default) := by
  induction idxs generalizing ins with
  | nil => cases hk
  | cons j js ih =>
    rcases List.mem_cons.mp hk with rfl | hmem
    · have step : SenderScrubbed ((clearAt ins k).getD k default) := by
        by_cases hlen : k < ins.length
        · unfold clearAt
          rw [getD_set_self _ _ _ _ hlen]
          exact clearSenderInput_scrubbed _
        · unfold clearAt
          rw [getD_of_le]
          · exact default_sender_scrubbed
          · rw [List.length_set]
            omega
      exact foldl_clearAt_getD_pres js (clearAt ins k) k step
    · exact ih (clearAt ins j) hmem

theorem general_getD (ins : List PsbtInput) (j : Nat)
    (h : ∀ y ∈ ins, GeneralScrubbed y) : GeneralScrubbed (ins.getD j default) := by
  by_cases hlen : j < ins.length
  · exact h _ (getD_mem_of_lt ins j default hlen)
  · rw [getD_of_le _ _ _ (by omega)]
    exact default_general_scrubbed

theorem mem_foldl_clearAt (idxs : List Nat) (ins : List PsbtInput) (x : PsbtInput)
    (h : ∀ y ∈ ins, GeneralScrubbed y) (hx : x ∈ idxs.foldl clearAt ins) :
    GeneralScrubbed x := by
  induction idxs generalizing ins with
  | nil => exact h x hx
  | cons j js ih =>
    refine ih (clearAt ins j) ?_ hx
    intro y hy
    rcases List.mem_or_eq_of_mem_set hy with h1 | h1
    · exact h y h1
    · subst h1
      exact clearSenderInput_general _ (general_getD ins j h)

theorem addToOutput_length (l : List TxOut) (i v : Nat) :
    (addToOutput l i v).length = l.length := by
  unfold addToOutput
  cases h : l.get? i <;> simp

theorem subFromOutput_length (l : List TxOut) (i v : Nat) :
    (subFromOutput l i v).length = l.length := by
  unfold subFromOutput
  cases h : l.get? i <;> simp

end PayjoinReceive

namespace PayjoinReceive

theorem substituteOutputs_built_length (owned : List Nat) (os : List TxOut) (i : Nat)
    (repl : List TxOut) (b rem : List TxOut)
    (h : substituteOutputs owned os i repl = .ok (b, rem)) : b.length = os.length := by
  induction os generalizing i repl b rem with
  | nil =>
    simp only [substituteOutputs, Except.ok.injEq, Prod.mk.injEq] at h
    rw [← h.1]
  | cons o os ih =>
    by_cases hmem : i ∈ owned
    · cases repl with
      | nil => simp [substituteOutputs, if_pos hmem] at h
      | cons r rs =>
        simp only [substituteOutputs, if_pos hmem] at h
        cases hs : substituteOutputs owned os (i + 1) rs with
        | error e => rw [hs] at h; simp at h
        | ok pair =>
          obtain ⟨b2, rem2⟩ := pair
          rw [hs] at h
          simp only [Except.ok.injEq, Prod.mk.injEq] at h
          rw [← h.1, List.length_cons, List.length_cons, ih (i + 1) rs b2 rem2 hs]
    · simp only [substituteOutputs, if_neg hmem] at h
      cases hs : substituteOutputs owned os (i + 1) repl with
      | error e => rw [hs] at h; simp at h
      | ok pair =>
        obtain ⟨b2, rem2⟩ := pair
        rw [hs] at h
        simp only [Except.ok.injEq, Prod.mk.injEq] at h
        rw [← h.1, List.length_cons, List.length_cons, ih (i + 1) repl b2 rem2 hs]

theorem subst_outputs_ok (wo : WantsOutputs) (outs : Option (List TxOut)) (wi : WantsInputs)
    (h : try_substitute_receiver_outputs wo outs = .ok wi) :
    wi.original_psbt = wo.original_psbt ∧ wi.params = wo.params ∧
    wi.owned_vouts = wo.owned_vouts ∧
    wi.payjoin_psbt.unsigned_tx.input = wo.payjoin_psbt.unsigned_tx.input ∧
    wi.payjoin_psbt.inputs = wo.payjoin_psbt.inputs ∧
    wi.payjoin_psbt.outputs = wo.payjoin_psbt.outputs ∧
    wo.payjoin_psbt.unsigned_tx.output.length ≤ wi.payjoin_psbt.unsigned_tx.output.length := by
  cases outs with
  | none =>
    simp only [try_substitute_receiver_outputs, Except.ok.injEq] at h
    rw [← h]
    exact ⟨rfl, rfl, rfl, rfl, rfl, rfl, le_refl _⟩
  | some o =>
    by_cases hd : wo.params.disable_output_substitution
    · simp [try_substitute_receiver_outputs, hd] at h
    · simp only [try_substitute_receiver_outputs, if_neg hd] at h
      cases hs : substituteOutputs wo.owned_vouts wo.payjoin_psbt.unsigned_tx.output 0 o with
      | error e => rw [hs] at h; simp at h
      | ok pair =>
        obtain ⟨built, rem⟩ := pair
        rw [hs] at h
        simp only [Except.ok.injEq] at h
        rw [← h]
        refine ⟨rfl, rfl, rfl, rfl, rfl, rfl, ?_⟩
        simp only [List.length_append]
        rw [substituteOutputs_built_length _ _ _ _ _ _ hs]
        omega

theorem subst_output_ok (wo : WantsOutputs) (gen : Except PjError Nat) (wi : WantsInputs)
    (h : try_substitute_receiver_output wo gen = .ok wi) :
    wi.original_psbt = wo.original_psbt ∧ wi.params = wo.params ∧
    wi.owned_vouts = wo.owned_vouts ∧
    wi.payjoin_psbt.unsigned_tx.input = wo.payjoin_psbt.unsigned_tx.input ∧
    wi.payjoin_psbt.inputs = wo.payjoin_psbt.inputs ∧
    wi.payjoin_psbt.outputs = wo.payjoin_psbt.outputs ∧
    wo.payjoin_psbt.unsigned_tx.output.length ≤ wi.payjoin_psbt.unsigned_tx.output.length := by
  cases gen with
  | error e => simp [try_substitute_receiver_output] at h
  | ok s =>
    have h2 : try_substitute_receiver_outputs wo
        (some [{ value := (wo.payjoin_psbt.unsigned_tx.output.getD
                  (wo.owned_vouts.getD 0 0) ⟨0, 0⟩).value,
                 script_pubkey := s }]) = .ok wi := h
    exact subst_outputs_ok wo _ wi h2

theorem collectOwnedVouts_bounds (f : Nat → Except PjError Bool) (os : List TxOut)
    (i : Nat) (ov : List Nat) (h : collectOwnedVouts f os i = .ok ov) :
    ∀ v ∈ ov, i ≤ v ∧ v < i + os.length := by
  induction os generalizing i ov with
  | nil =>
    simp only [collectOwnedVouts, Except.ok.injEq] at h
    rw [← h]
    intro v hv
    cases hv
  | cons o os ih =>
    cases hf : f o.script_pubkey with
    | error e => simp [collectOwnedVouts, hf] at h
    | ok b =>
      simp only [collectOwnedVouts, hf] at h
      cases hc : collectOwnedVouts f os (i + 1) with
      | error e => rw [hc] at h; simp at h
      | ok rest =>
        rw [hc] at h
        simp only [Except.ok.injEq] at h
        intro v hv
        rw [← h] at hv
        have hrest : ∀ v ∈ rest, i + 1 ≤ v ∧ v < i + 1 + os.length := ih (i + 1) rest hc
        cases b with
        | true =>
          simp at hv
          rcases hv with rfl | hmem
          · simp
          · have := hrest v hmem
            constructor <;> [omega; (simp only [List.length_cons]; omega)]
        | false =>
          simp at hv
          have := hrest v hv
          constructor <;> [omega; (simp only [List.length_cons]; omega)]

theorem identify_ok (s : OutputsUnknown) (f : Nat → Except PjError Bool)
    (wo : WantsOutputs) (h : identify_receiver_outputs s f = .ok wo) :
    wo.original_psbt = s.psbt ∧ wo.payjoin_psbt = s.psbt ∧ wo.params = s.params ∧
    wo.owned_vouts ≠ [] ∧
    ∀ v ∈ wo.owned_vouts, v < s.psbt.unsigned_tx.output.length := by
  cases hc : collectOwnedVouts f s.psbt.unsigned_tx.output 0 with
  | error e => simp [identify_receiver_outputs, hc] at h
  | ok ov =>
    simp only [identify_receiver_outputs, hc] at h
    by_cases he : ov.isEmpty
    · rw [if_pos he] at h
      simp at h
    · rw [if_neg he] at h
      simp only [Except.ok.injEq] at h
      rw [← h]
      refine ⟨rfl, rfl, rfl, ?_, ?_⟩
      · simpa [List.isEmpty_iff] using he
      · intro v hv
        have := collectOwnedVouts_bounds f _ 0 ov hc v hv
        omega

theorem cappedAdditionalFee_le (pp : ProvisionalProposal) (mfr w : Nat) :
    cappedAdditionalFee pp mfr w ≤ (pp.params.additional_fee_contribution.getD (0, 0)).1 ∧
    cappedAdditionalFee pp mfr w ≤ w * mfr := by
  unfold cappedAdditionalFee mulFee
  by_cases h : (pp.params.additional_fee_contribution.getD (0, 0)).1 ≤ w * mfr / 1000
  · rw [if_pos h]
    constructor
    · exact le_refl _
    · calc (pp.params.additional_fee_contribution.getD (0, 0)).1 ≤ w * mfr / 1000 := h
        _ ≤ w * mfr := Nat.div_le_self _ _
  · rw [if_neg h]
    exact ⟨by omega, Nat.div_le_self _ _⟩

theorem apply_fee_core_cases (pp : ProvisionalProposal) (mfr w : Nat) :
    apply_fee_core pp mfr w = pp ∨
    ∃ amt idx, pp.params.additional_fee_contribution = some (amt, idx) ∧
      idx ∉ pp.owned_vouts ∧ 0 < cappedAdditionalFee pp mfr w ∧
      apply_fee_core pp mfr w =
        { pp with
          payjoin_psbt :=
            { pp.payjoin_psbt with
              unsigned_tx :=
                { pp.payjoin_psbt.unsigned_tx with
                  output := subFromOutput pp.payjoin_psbt.unsigned_tx.output idx
                    (cappedAdditionalFee pp mfr w) } } } := by
  by_cases h1 : 0 < cappedAdditionalFee pp mfr w
  · cases hafc : pp.params.additional_fee_contribution with
    | none =>
      left
      unfold apply_fee_core
      rw [if_pos h1, hafc]
    | some pair =>
      obtain ⟨amt, idx⟩ := pair
      by_cases h2 : idx ∈ pp.owned_vouts
      · left
        unfold apply_fee_core
        rw [if_pos h1, hafc]
        simp only [if_pos h2]
      · right
        refine ⟨amt, idx, rfl, h2, h1, ?_⟩
        unfold apply_fee_core
        rw [if_pos h1, hafc]
        simp only [if_neg h2]
  · left
    unfold apply_fee_core
    rw [if_neg h1]

theorem apply_fee_ok (pp : ProvisionalProposal) (mf : Option Nat)
    (iw : TxIn → PsbtInput → Except RequestErrorKind Nat) (pp2 : ProvisionalProposal)
    (h : apply_fee pp mf iw = .ok pp2) :
    ∃ w, pp2 = apply_fee_core pp (max (mf.getD 0) pp.params.min_feerate) w := by
  cases hip : input_pairs pp.payjoin_psbt with
  | nil => simp [apply_fee, hip] at h
  | cons pair rest =>
    obtain ⟨txin, psbtin⟩ := pair
    cases hw : iw txin psbtin with
    | error e => simp [apply_fee, hip, hw] at h
    | ok w =>
      simp only [apply_fee, hip, hw, Except.ok.injEq] at h
      exact ⟨w, h.symm⟩

theorem apply_fee_core_frame (pp : ProvisionalProposal) (mfr w : Nat) :
    (apply_fee_core pp mfr w).original_psbt = pp.original_psbt ∧
    (apply_fee_core pp mfr w).params = pp.params ∧
    (apply_fee_core pp mfr w).owned_vouts = pp.owned_vouts ∧
    (apply_fee_core pp mfr w).payjoin_psbt.unsigned_tx.input =
      pp.payjoin_psbt.unsigned_tx.input ∧
    (apply_fee_core pp mfr w).payjoin_psbt.inputs = pp.payjoin_psbt.inputs ∧
    (apply_fee_core pp mfr w).payjoin_psbt.outputs = pp.payjoin_psbt.outputs ∧
    (apply_fee_core pp mfr w).payjoin_psbt.unsigned_tx.output.length =
      pp.payjoin_psbt.unsigned_tx.output.length := by
  rcases apply_fee_core_cases pp mfr w with h | ⟨amt, idx, _, _, _, h⟩ <;> rw [h]
  · exact ⟨rfl, rfl, rfl, rfl, rfl, rfl, rfl⟩
  · exact ⟨rfl, rfl, rfl, rfl, rfl, rfl, subFromOutput_length _ _ _⟩

end PayjoinReceive

namespace PayjoinReceive

theorem step_preserves_original (p : Psbt) (a b : Stage) (h : PipeStep a b)
    (ha : originalIs p a) : originalIs p b := by
  cases h with
  | subst_outputs wo outs wi hok =>
    have heq := (subst_outputs_ok wo outs wi hok).1
    show wi.original_psbt = p
    rw [heq]
    exact ha
  | subst_output wo gen wi hok =>
    have heq := (subst_output_ok wo gen wi hok).1
    show wi.original_psbt = p
    rw [heq]
    exact ha
  | contrib_witness wi txo op v j => exact ha
  | contrib_non_witness wi tx op v j => exact ha
  | skip_inputs wi => exact ha
  | clear_sigs pp => exact ha
  | fee pp mfr iw pp2 hok =>
    obtain ⟨w, hw⟩ := apply_fee_ok pp mfr iw pp2 hok
    have heq := (apply_fee_core_frame pp (max (mfr.getD 0) pp.params.min_feerate) w).1
    show pp2.original_psbt = p
    rw [hw, heq]
    exact ha
  | prepare pp processed hlen => trivial

theorem step_preserves_inv (a b : Stage) (h : PipeStep a b) (ha : StageInv a) :
    StageInv b := by
  obtain ⟨hne, hlt⟩ := ha
  cases h with
  | subst_outputs wo outs wi hok =>
    obtain ⟨_, _, hov, _, _, _, hlen⟩ := subst_outputs_ok wo outs wi hok
    constructor
    · show wi.owned_vouts ≠ []
      rw [hov]
      exact hne
    · intro v hv
      show v < wi.payjoin_psbt.unsigned_tx.output.length
      have hv2 : v ∈ wi.owned_vouts := hv
      rw [hov] at hv2
      have hlt2 : ∀ x ∈ wo.owned_vouts, x < wo.payjoin_psbt.unsigned_tx.output.length := hlt
      have := hlt2 v hv2
      omega
  | subst_output wo gen wi hok =>
    obtain ⟨_, _, hov, _, _, _, hlen⟩ := subst_output_ok wo gen wi hok
    constructor
    · show wi.owned_vouts ≠ []
      rw [hov]
      exact hne
    · intro v hv
      show v < wi.payjoin_psbt.unsigned_tx.output.length
      have hv2 : v ∈ wi.owned_vouts := hv
      rw [hov] at hv2
      have hlt2 : ∀ x ∈ wo.owned_vouts, x < wo.payjoin_psbt.unsigned_tx.output.length := hlt
      have := hlt2 v hv2
      omega
  | contrib_witness wi txo op v j =>
    constructor
    · exact hne
    · intro x hx
      show x < (addToOutput wi.payjoin_psbt.unsigned_tx.output v txo.value).length
      rw [addToOutput_length]
      exact hlt x hx
  | contrib_non_witness wi tx op v j =>
    constructor
    · exact hne
    · intro x hx
      show x < (addToOutput wi.payjoin_psbt.unsigned_tx.output v
        (tx.output.getD op.vout ⟨0, 0⟩).value).length
      rw [addToOutput_length]
      exact hlt x hx
  | skip_inputs wi => exact ⟨hne, hlt⟩
  | clear_sigs pp => exact ⟨hne, hlt⟩
  | fee pp mfr iw pp2 hok =>
    obtain ⟨w, hw⟩ := apply_fee_ok pp mfr iw pp2 hok
    have hfr := apply_fee_core_frame pp (max (mfr.getD 0) pp.params.min_feerate) w
    have hov : pp2.owned_vouts = pp.owned_vouts := by rw [hw]; exact hfr.2.2.1
    have holen : pp2.payjoin_psbt.unsigned_tx.output.length =
        pp.payjoin_psbt.unsigned_tx.output.length := by
      rw [hw]
      exact hfr.2.2.2.2.2.2
    constructor
    · show pp2.owned_vouts ≠ []
      rw [hov]
      exact hne
    · intro x hx
      show x < pp2.payjoin_psbt.unsigned_tx.output.length
      have hx2 : x ∈ pp2.owned_vouts := hx
      rw [hov] at hx2
      rw [holen]
      exact hlt x hx2
  | prepare pp processed hlen =>
    constructor
    · exact hne
    · intro x hx
      show x < processed.unsigned_tx.output.length
      rw [hlen]
      exact hlt x hx

end PayjoinReceive

namespace PayjoinReceive

theorem getD_eq_of_get? (l : List α) (i : Nat) (d : α) (o : α)
    (h : l.get? i = some o) : l.getD i d = o := by
  rw [List.getD_eq_getElem?_getD, ← List.get?_eq_getElem?, h]
  rfl

theorem lt_length_of_get? (l : List α) (i : Nat) (o : α)
    (h : l.get? i = some o) : i < l.length := by
  by_contra hc
  rw [List.get?_eq_none.mpr (by omega)] at h
  cases h

theorem addToOutput_getD_self (l : List TxOut) (i c : Nat) (d : TxOut)
    (h : i < l.length) :
    (addToOutput l i c).getD i d = { l.getD i d with value := (l.getD i d).value + c } := by
  cases hget : l.get? i with
  | none =>
    have hle : l.length ≤ i := List.get?_eq_none.mp hget
    omega
  | some o =>
    unfold addToOutput
    rw [hget]
    rw [getD_set_self _ _ _ _ (by simpa using h), getD_eq_of_get? l i d o hget]

theorem addToOutput_getD_ne (l : List TxOut) (i c k : Nat) (d : TxOut)
    (h : i ≠ k) : (addToOutput l i c).getD k d = l.getD k d := by
  unfold addToOutput
  cases hget : l.get? i with
  | none => rfl
  | some o => rw [getD_set_ne _ _ _ _ _ h]

theorem subFromOutput_getD_ne (l : List TxOut) (i v k : Nat) (d : TxOut)
    (h : i ≠ k) : (subFromOutput l i v).getD k d = l.getD k d := by
  unfold subFromOutput
  cases hget : l.get? i with
  | none => rfl
  | some o => rw [getD_set_ne _ _ _ _ _ h]

theorem subFromOutput_getD_self (l : List TxOut) (i v : Nat) (d : TxOut) (o : TxOut)
    (hget : l.get? i = some o) :
    (subFromOutput l i v).getD i d = { o with value := o.value - v } := by
  unfold subFromOutput
  rw [hget]
  exact getD_set_self _ _ _ _ (lt_length_of_get? l i o hget)

theorem subFromOutput_getD_script (l : List TxOut) (i v k : Nat) (d : TxOut) :
    ((subFromOutput l i v).getD k d).script_pubkey = (l.getD k d).script_pubkey := by
  by_cases h : i = k
  · subst h
    cases hget : l.get? i with
    | none =>
      unfold subFromOutput
      rw [hget]
    | some o =>
      rw [subFromOutput_getD_self l i v d o hget, getD_eq_of_get? l i d o hget]
  · rw [subFromOutput_getD_ne _ _ _ _ _ h]

theorem uihLoop_ok (a b c : Nat) (l : List (Nat × OutPoint)) (r : List OutPoint)
    (h : uihLoop a b c l = .ok r) :
    ∃ v op, (v, op) ∈ l ∧ r = [op] ∧ min b (c + v) < min a v := by
  induction l with
  | nil => simp [uihLoop] at h
  | cons p rest ih =>
    obtain ⟨v, op⟩ := p
    by_cases hc : min b (c + v) < min a v
    · simp only [uihLoop, if_pos hc, Except.ok.injEq] at h
      exact ⟨v, op, List.mem_cons_self _ _, h.symm, hc⟩
    · simp only [uihLoop, if_neg hc] at h
      obtain ⟨v2, op2, hm, hr, hlt⟩ := ih h
      exact ⟨v2, op2, List.mem_cons_of_mem _ hm, hr, hlt⟩

theorem uihLoop_notFound (a b c : Nat) (l : List (Nat × OutPoint))
    (h : ∀ p ∈ l, ¬ (min b (c + p.1) < min a p.1)) :
    uihLoop a b c l = .error .NotFound := by
  induction l with
  | nil => rfl
  | cons p rest ih =>
    obtain ⟨v, op⟩ := p
    have hc := h (v, op) (List.mem_cons_self _ _)
    simp only [uihLoop, if_neg hc]
    exact ih fun q hq => h q (List.mem_cons_of_mem _ hq)

theorem contrib_core (wi : WantsInputs) (op : OutPoint) (v j credited : Nat)
    (npi : PsbtInput)
    (hv : v ∈ wi.owned_vouts)
    (hvlt : v < wi.payjoin_psbt.unsigned_tx.output.length)
    (hj : j ≤ wi.payjoin_psbt.unsigned_tx.input.length)
    (hlen : wi.payjoin_psbt.inputs.length = wi.payjoin_psbt.unsigned_tx.input.length)
    (hinputs : wi.payjoin_psbt.unsigned_tx.input = wi.original_psbt.unsigned_tx.input) :
    ContribSpec wi
      { original_psbt := wi.original_psbt,
        payjoin_psbt :=
          { unsigned_tx :=
              { input := insertAt wi.payjoin_psbt.unsigned_tx.input j
                  { previous_output := op, sequence := original_sequence_of wi },
                output := addToOutput wi.payjoin_psbt.unsigned_tx.output v credited },
            inputs := insertAt wi.payjoin_psbt.inputs j npi,
            outputs := wi.payjoin_psbt.outputs },
        params := wi.params, owned_vouts := wi.owned_vouts }
      op v j credited npi := by
  have hj2 : j ≤ wi.payjoin_psbt.inputs.length := by omega
  refine ⟨insertAt_length _ _ _, insertAt_length _ _ _, ?_, ?_, ?_, ?_, ?_, ?_, ?_, ?_,
    ?_, ?_, rfl, hv, hj⟩
  · rw [getD_insertAt_self _ _ _ _ hj]
    unfold original_sequence_of
    rw [hinputs]
  · exact getD_insertAt_self _ _ _ _ hj2
  · intro i hij
    exact getD_insertAt_lt _ _ _ _ _ hij hj
  · intro i hij _
    exact getD_insertAt_succ _ _ _ _ _ hij
  · intro i hij
    exact getD_insertAt_lt _ _ _ _ _ hij hj2
  · intro i hij _
    exact getD_insertAt_succ _ _ _ _ _ hij
  · rw [addToOutput_getD_self _ _ _ _ hvlt]
  · rw [addToOutput_getD_self _ _ _ _ hvlt]
  · intro i hiv
    exact addToOutput_getD_ne _ _ _ _ _ fun h => hiv h.symm
  · exact addToOutput_length _ _ _

end PayjoinReceive

namespace PayjoinReceive

theorem subFromOutput_deduction (l : List TxOut) (i v k : Nat) (d : TxOut) :
    (l.getD k d).value - ((subFromOutput l i v).getD k d).value ≤ v ∧
    ((subFromOutput l i v).getD k d).value ≤ (l.getD k d).value := by
  by_cases h : i = k
  · subst h
    cases hget : l.get? i with
    | none =>
      have heq : subFromOutput l i v = l := by unfold subFromOutput; rw [hget]
      rw [heq]
      omega
    | some o =>
      rw [subFromOutput_getD_self l i v d o hget, getD_eq_of_get? l i d o hget]
      show o.value - (o.value - v) ≤ v ∧ o.value - v ≤ o.value
      omega
  · rw [subFromOutput_getD_ne _ _ _ _ _ h]
    omega

/-- C8: for a WantsOutputs state whose sender set disableoutputsubstitution
(and which satisfies the pipeline's owned-vout validity, claim C9), every
substitution call that passes replacement outputs — in particular any call
that would change a receiver output script, and try_substitute_receiver_output
itself — rejects with the Server error "Output substitution is disabled.",
while the no-op call try_substitute_receiver_outputs none succeeds and
returns the payjoin psbt unchanged. -/
theorem claim_C8 (wo : WantsOutputs)
    (hd : wo.params.disable_output_substitution = true)
    (outs : List TxOut) (gen : Nat)
    (hov : wo.owned_vouts ≠ [])
    (hix : wo.owned_vouts.getD 0 0 < wo.payjoin_psbt.unsigned_tx.output.length) :
    try_substitute_receiver_outputs wo (some outs) =
      .error (.server "Output substitution is disabled.") ∧
    try_substitute_receiver_output wo (.ok gen) =
      .error (.server "Output substitution is disabled.") ∧
    ∃ wi, try_substitute_receiver_outputs wo none = .ok wi ∧
      wi.payjoin_psbt = wo.payjoin_psbt := by
  have h1 : ∀ outs2 : List TxOut, try_substitute_receiver_outputs wo (some outs2) =
      .error (.server "Output substitution is disabled.") := by
    intro outs2
    simp [try_substitute_receiver_outputs, hd]
  have h2 : try_substitute_receiver_output wo (.ok gen) =
      try_substitute_receiver_outputs wo
        (some [{ value := (wo.payjoin_psbt.unsigned_tx.output.getD
                    (wo.owned_vouts.getD 0 0) ⟨0, 0⟩).value,
                 script_pubkey := gen }]) := rfl
  exact ⟨h1 outs, h2.trans (h1 _), ⟨_, rfl, rfl⟩⟩

/-- C8 witness: the disabled-substitution state rejects both substitution
entry points and accepts the no-op call. -/
theorem claim_C8_witness :
    try_substitute_receiver_outputs exWantsOutputsDisabled
        (some [{ value := 1, script_pubkey := 2 }]) =
      .error (.server "Output substitution is disabled.") ∧
    try_substitute_receiver_output exWantsOutputsDisabled (.ok 42) =
      .error (.server "Output substitution is disabled.") ∧
    ∃ wi, try_substitute_receiver_outputs exWantsOutputsDisabled none = .ok wi ∧
      wi.payjoin_psbt = exWantsOutputsDisabled.payjoin_psbt :=
  claim_C8 exWantsOutputsDisabled rfl [{ value := 1, script_pubkey := 2 }] 42
    (by decide) (by decide)

/-- C3: on a WantsInputs state whose payjoin psbt has exactly two outputs
(and valid owned vouts, claim C9) and a non-empty candidate list, whenever
try_preserving_privacy returns Ok it returns a single candidate outpoint
whose value v satisfies min(min_original_out, prior_payment + v) <
min(min_original_in, v); when no candidate satisfies that inequality it
returns the NotFound selection error. -/
theorem claim_C3 (wi : WantsInputs) (cands : List (Nat × OutPoint))
    (h2 : wi.payjoin_psbt.outputs.length = 2) (hne : cands ≠ [])
    (hov : wi.owned_vouts ≠ [])
    (hix : wi.owned_vouts.getD 0 0 < wi.payjoin_psbt.unsigned_tx.output.length) :
    (∀ r, try_preserving_privacy wi cands = .ok r →
      ∃ v op, (v, op) ∈ cands ∧ r = [op] ∧
        min (min_original_out_sats wi) (prior_payment_sats wi + v) <
          min (min_original_in_sats wi) v) ∧
    ((∀ p ∈ cands, ¬ (min (min_original_out_sats wi) (prior_payment_sats wi + p.1) <
        min (min_original_in_sats wi) p.1)) →
      try_preserving_privacy wi cands = .error .NotFound) := by
  have hred : try_preserving_privacy wi cands = avoid_uih wi cands := by
    unfold try_preserving_privacy
    rw [if_neg (fun h => hne (List.isEmpty_iff.mp h)), if_neg (by omega), if_pos h2]
  constructor
  · intro r hr
    rw [hred] at hr
    exact uihLoop_ok (min_original_in_sats wi) (min_original_out_sats wi)
      (prior_payment_sats wi) cands r hr
  · intro hno
    rw [hred]
    exact uihLoop_notFound (min_original_in_sats wi) (min_original_out_sats wi)
      (prior_payment_sats wi) cands hno

/-- C3 witness at the concrete two-output state with a single 250-sat
candidate. -/
theorem claim_C3_witness :
    (∀ r, try_preserving_privacy exWantsInputs [(250, ⟨9, 0⟩)] = .ok r →
      ∃ v op, (v, op) ∈ [((250 : Nat), (⟨9, 0⟩ : OutPoint))] ∧ r = [op] ∧
        min (min_original_out_sats exWantsInputs) (prior_payment_sats exWantsInputs + v) <
          min (min_original_in_sats exWantsInputs) v) ∧
    ((∀ p ∈ [((250 : Nat), (⟨9, 0⟩ : OutPoint))],
        ¬ (min (min_original_out_sats exWantsInputs)
            (prior_payment_sats exWantsInputs + p.1) <
          min (min_original_in_sats exWantsInputs) p.1)) →
      try_preserving_privacy exWantsInputs [(250, ⟨9, 0⟩)] = .error .NotFound) :=
  claim_C3 exWantsInputs [(250, ⟨9, 0⟩)] rfl (by decide) (by decide) (by decide)

/-- C7, code evaluation at the failing input: the payjoin outputs exceed
the original outputs by 500 sats, yet do_coin_selection accepts the first
candidate worth only 10 sats, because the source computes
min(0, output_amount - original_output_amount) — a threshold that is never
positive — where its own comment says it selects inputs that can pay the
amount the receiver must contribute. -/
theorem claim_C7_code_eval :
    do_coin_selection exWantsInputsC7 exCandsC7 = .ok [⟨7, 0⟩] ∧
    total_output_value exWantsInputsC7.payjoin_psbt = 600 ∧
    total_output_value exWantsInputsC7.original_psbt = 100 ∧
    (10 : Nat) < 600 - 100 :=
  ⟨rfl, rfl, rfl, by omega⟩

/-- C10: when the sender declared no additional-fee parameters, apply_fee
returns the state unchanged (the fee is clamped to the default maximum of
zero); in general a successful apply_fee changes nothing but possibly the
value of the single output at the declared additionalfeeoutputindex: the
original psbt, params, owned vouts, psbt inputs, unsigned inputs, psbt
output metadata, every other output, and every output script are
unchanged. -/
theorem claim_C10 (pp : ProvisionalProposal) (mf : Option Nat)
    (iw : TxIn → PsbtInput → Except RequestErrorKind Nat) (pp2 : ProvisionalProposal)
    (hok : apply_fee pp mf iw = .ok pp2) :
    (pp.params.additional_fee_contribution = none → pp2 = pp) ∧
    pp2.original_psbt = pp.original_psbt ∧ pp2.params = pp.params ∧
    pp2.owned_vouts = pp.owned_vouts ∧
    pp2.payjoin_psbt.unsigned_tx.input = pp.payjoin_psbt.unsigned_tx.input ∧
    pp2.payjoin_psbt.inputs = pp.payjoin_psbt.inputs ∧
    pp2.payjoin_psbt.outputs = pp.payjoin_psbt.outputs ∧
    (∀ i, i ≠ (pp.params.additional_fee_contribution.getD (0, 0)).2 →
      pp2.payjoin_psbt.unsigned_tx.output.getD i ⟨0, 0⟩ =
        pp.payjoin_psbt.unsigned_tx.output.getD i ⟨0, 0⟩) ∧
    (∀ i, (pp2.payjoin_psbt.unsigned_tx.output.getD i ⟨0, 0⟩).script_pubkey =
      (pp.payjoin_psbt.unsigned_tx.output.getD i ⟨0, 0⟩).script_pubkey) := by
  obtain ⟨w, hw⟩ := apply_fee_ok pp mf iw pp2 hok
  rcases apply_fee_core_cases pp (max (mf.getD 0) pp.params.min_feerate) w with hcase |
    ⟨amt, idx, hafc, hmem, hpos, hcase⟩
  · have heq : pp2 = pp := hw.trans hcase
    subst heq
    exact ⟨fun _ => rfl, rfl, rfl, rfl, rfl, rfl, rfl, fun i _ => rfl, fun i => rfl⟩
  · have heq : pp2 = _ := hw.trans hcase
    subst heq
    have hidx : (pp.params.additional_fee_contribution.getD (0, 0)).2 = idx := by
      rw [hafc]
      rfl
    refine ⟨?_, rfl, rfl, rfl, rfl, rfl, rfl, ?_, ?_⟩
    · intro hnone
      rw [hnone] at hafc
      cases hafc
    · intro i hi
      apply subFromOutput_getD_ne
      intro h
      exact hi (by rw [hidx]; exact h.symm)
    · intro i
      exact subFromOutput_getD_script _ _ _ _ _

/-- C10 witness: a successful fee application at the concrete state leaves
output 1 (not the declared index 0) unchanged. -/
theorem claim_C10_witness :
    exProvisionalAfterFee.payjoin_psbt.unsigned_tx.output.getD 1 ⟨0, 0⟩ =
      exProvisional.payjoin_psbt.unsigned_tx.output.getD 1 ⟨0, 0⟩ :=
  (claim_C10 exProvisional (some 1000) exInputWeight exProvisionalAfterFee
    rfl).2.2.2.2.2.2.2.1 1 (by decide)

/-- C1: whenever apply_fee succeeds, the sats it deducts from any output
are at most min(maxadditionalfeecontribution, contribution_weight x
effective_min_feerate), with effective_min_feerate =
max(caller min_feerate, params.min_feerate); any output whose value
changed is exactly the sender-declared additionalfeeoutputindex, that
index is not a receiver-owned vout, and the deduction never exceeds the
declared maxadditionalfeecontribution. -/
theorem claim_C1 (pp : ProvisionalProposal) (mf : Option Nat)
    (iw : TxIn → PsbtInput → Except RequestErrorKind Nat) (pp2 : ProvisionalProposal)
    (t : TxIn) (pi : PsbtInput) (rest : List (TxIn × PsbtInput)) (w : Nat)
    (hfirst : input_pairs pp.payjoin_psbt = (t, pi) :: rest)
    (hweight : iw t pi = .ok w)
    (hok : apply_fee pp mf iw = .ok pp2) :
    (∀ i, (pp.payjoin_psbt.unsigned_tx.output.getD i ⟨0, 0⟩).value -
        (pp2.payjoin_psbt.unsigned_tx.output.getD i ⟨0, 0⟩).value ≤
      min ((pp.params.additional_fee_contribution.getD (0, 0)).1)
        (w * max (mf.getD 0) pp.params.min_feerate)) ∧
    (∀ i, (pp2.payjoin_psbt.unsigned_tx.output.getD i ⟨0, 0⟩).value ≠
        (pp.payjoin_psbt.unsigned_tx.output.getD i ⟨0, 0⟩).value →
      ∃ amt idx, pp.params.additional_fee_contribution = some (amt, idx) ∧ i = idx ∧
        idx ∉ pp.owned_vouts ∧
        (pp.payjoin_psbt.unsigned_tx.output.getD i ⟨0, 0⟩).value -
          (pp2.payjoin_psbt.unsigned_tx.output.getD i ⟨0, 0⟩).value ≤ amt) := by
  have hw : pp2 = apply_fee_core pp (max (mf.getD 0) pp.params.min_feerate) w := by
    simp only [apply_fee, hfirst, hweight, Except.ok.injEq] at hok
    exact hok.symm
  have hfee := cappedAdditionalFee_le pp (max (mf.getD 0) pp.params.min_feerate) w
  rcases apply_fee_core_cases pp (max (mf.getD 0) pp.params.min_feerate) w with hcase |
    ⟨amt, idx, hafc, hmem, hpos, hcase⟩
  · have heq : pp2 = pp := hw.trans hcase
    subst heq
    constructor
    · intro i
      omega
    · intro i hne
      exact absurd rfl hne
  · have heq : pp2 = _ := hw.trans hcase
    subst heq
    have hamt : cappedAdditionalFee pp (max (mf.getD 0) pp.params.min_feerate) w ≤ amt := by
      have h1 := hfee.1
      rw [hafc] at h1
      simpa using h1
    constructor
    · intro i
      have hd := (subFromOutput_deduction pp.payjoin_psbt.unsigned_tx.output idx
        (cappedAdditionalFee pp (max (mf.getD 0) pp.params.min_feerate) w) i ⟨0, 0⟩).1
      exact le_min (le_trans hd hfee.1) (le_trans hd hfee.2)
    · intro i hne
      by_cases hik : i = idx
      · subst hik
        refine ⟨amt, i, hafc, rfl, hmem, ?_⟩
        have hd := (subFromOutput_deduction pp.payjoin_psbt.unsigned_tx.output i
          (cappedAdditionalFee pp (max (mf.getD 0) pp.params.min_feerate) w) i ⟨0, 0⟩).1
        exact le_trans hd hamt
      · exfalso
        apply hne
        show ((subFromOutput pp.payjoin_psbt.unsigned_tx.output idx
            (cappedAdditionalFee pp (max (mf.getD 0) pp.params.min_feerate) w)).getD
              i ⟨0, 0⟩).value =
          (pp.payjoin_psbt.unsigned_tx.output.getD i ⟨0, 0⟩).value
        rw [subFromOutput_getD_ne _ _ _ _ _ fun h => hik h.symm]

/-- C1 witness: at the concrete state (maxadditionalfeecontribution 100,
weight 272000 wu, effective min feerate 1000 sat/kwu) the deduction at
output 0 obeys the declared bound. -/
theorem claim_C1_witness :
    (exProvisional.payjoin_psbt.unsigned_tx.output.getD 0 ⟨0, 0⟩).value -
      (exProvisionalAfterFee.payjoin_psbt.unsigned_tx.output.getD 0 ⟨0, 0⟩).value ≤
    min ((exProvisional.params.additional_fee_contribution.getD (0, 0)).1)
      (272000 * max ((some 1000 : Option Nat).getD 0) exProvisional.params.min_feerate) :=
  (claim_C1 exProvisional (some 1000) exInputWeight exProvisionalAfterFee
    { previous_output := ⟨1, 0⟩, sequence := 5 }
    { witness_utxo := some { value := 600, script_pubkey := 20 } }
    [({ previous_output := ⟨2, 1⟩, sequence := 5 },
      { witness_utxo := some { value := 400, script_pubkey := 21 } })]
    272000 rfl rfl rfl).1 0

end PayjoinReceive

namespace PayjoinReceive

/-- C5: contribute_witness_input and contribute_non_witness_input insert
exactly one new input, at the same index j (in range [0, input_count]) of
both the psbt input list and the unsigned transaction's input list, whose
nSequence is the sequence of the sender's first input (default when the
input list is empty); they add the contributed UTXO's value to the one
receiver-owned output chosen and leave every pre-existing input and every
other output unchanged. The hypotheses are what the source guarantees:
the random vout is drawn from owned_vouts, the random index from
gen_range(0..=input_count), and at WantsInputs the payjoin inputs are
still the sender's. -/
theorem claim_C5 (wi : WantsInputs) (txo : TxOut) (tx : Transaction) (op : OutPoint)
    (v j : Nat)
    (hv : v ∈ wi.owned_vouts)
    (hvlt : v < wi.payjoin_psbt.unsigned_tx.output.length)
    (hj : j ≤ wi.payjoin_psbt.unsigned_tx.input.length)
    (hlen : wi.payjoin_psbt.inputs.length = wi.payjoin_psbt.unsigned_tx.input.length)
    (hinputs : wi.payjoin_psbt.unsigned_tx.input = wi.original_psbt.unsigned_tx.input) :
    ContribSpec wi (contribute_witness_input wi txo op v j) op v j txo.value
      { witness_utxo := some txo } ∧
    ContribSpec wi (contribute_non_witness_input wi tx op v j) op v j
      (tx.output.getD op.vout ⟨0, 0⟩).value { non_witness_utxo := some tx } :=
  ⟨contrib_core wi op v j txo.value { witness_utxo := some txo } hv hvlt hj hlen hinputs,
   contrib_core wi op v j (tx.output.getD op.vout ⟨0, 0⟩).value
     { non_witness_utxo := some tx } hv hvlt hj hlen hinputs⟩

/-- C5 witness: a concrete contribution of a 250-sat witness UTXO and a
77-sat non-witness UTXO at insertion index 1, credited to owned vout 1. -/
theorem claim_C5_witness :
    ContribSpec exWantsInputs
      (contribute_witness_input exWantsInputs { value := 250, script_pubkey := 30 }
        ⟨3, 0⟩ 1 1) ⟨3, 0⟩ 1 1 250
      { witness_utxo := some { value := 250, script_pubkey := 30 } } ∧
    ContribSpec exWantsInputs
      (contribute_non_witness_input exWantsInputs
        { input := [], output := [{ value := 77, script_pubkey := 31 }] } ⟨3, 0⟩ 1 1)
      ⟨3, 0⟩ 1 1 77
      { non_witness_utxo :=
          some { input := [], output := [{ value := 77, script_pubkey := 31 }] } } :=
  claim_C5 exWantsInputs { value := 250, script_pubkey := 30 }
    { input := [], output := [{ value := 77, script_pubkey := 31 }] } ⟨3, 0⟩ 1 1
    (by decide) (by decide) (by decide) rfl rfl

/-- C4: the original_psbt field established by identify_receiver_outputs
equals the psbt that entered that transition, and no later pipeline
operation (output substitution, input contribution, the pre-sign scrub,
apply_fee, prepare) ever changes it: every stage reachable from the
WantsOutputs state still carries that same original psbt. -/
theorem claim_C4 (s0 : OutputsUnknown) (f : Nat → Except PjError Bool)
    (wo : WantsOutputs) (st : Stage)
    (hid : identify_receiver_outputs s0 f = .ok wo)
    (hr : Reaches (.wantsOutputs wo) st) :
    wo.original_psbt = s0.psbt ∧ wo.payjoin_psbt = s0.psbt ∧ originalIs s0.psbt st := by
  obtain ⟨h1, h2, _, _, _⟩ := identify_ok s0 f wo hid
  refine ⟨h1, h2, ?_⟩
  induction hr with
  | refl => exact h1
  | tail hab hbc ih => exact step_preserves_original s0.psbt _ _ hbc ih

/-- C4 witness: the concrete identify run establishes original_psbt =
exPsbt and the reflexive reachability keeps it. -/
theorem claim_C4_witness :
    exWantsOutputs.original_psbt = exOutputsUnknown.psbt ∧
    exWantsOutputs.payjoin_psbt = exOutputsUnknown.psbt ∧
    originalIs exOutputsUnknown.psbt (.wantsOutputs exWantsOutputs) :=
  claim_C4 exOutputsUnknown exIsReceiverOutput exWantsOutputs
    (.wantsOutputs exWantsOutputs) rfl Relation.ReflTransGen.refl

/-- C9: in every stage reachable from identify_receiver_outputs onward,
owned_vouts is non-empty and each element indexes into the payjoin psbt's
output list — output substitution only replaces positions or appends,
contribution and fee application preserve the output count, and the
wallet-processing contract preserves it at prepare — so the source's
owned_vouts.choose(..).expect and its output indexings cannot panic. -/
theorem claim_C9 (s0 : OutputsUnknown) (f : Nat → Except PjError Bool)
    (wo : WantsOutputs) (st : Stage)
    (hid : identify_receiver_outputs s0 f = .ok wo)
    (hr : Reaches (.wantsOutputs wo) st) :
    StageInv st := by
  obtain ⟨_, h2, _, h4, h5⟩ := identify_ok s0 f wo hid
  have base : StageInv (.wantsOutputs wo) := by
    refine ⟨h4, ?_⟩
    intro v hv
    show v < wo.payjoin_psbt.unsigned_tx.output.length
    rw [h2]
    exact h5 v hv
  induction hr with
  | refl => exact base
  | tail hab hbc ih => exact step_preserves_inv _ _ hbc ih

/-- C9 witness: the invariant holds at the concrete WantsOutputs stage
identify_receiver_outputs builds. -/
theorem claim_C9_witness : StageInv (.wantsOutputs exWantsOutputs) :=
  claim_C9 exOutputsUnknown exIsReceiverOutput exWantsOutputs
    (.wantsOutputs exWantsOutputs) rfl Relation.ReflTransGen.refl

end PayjoinReceive

namespace PayjoinReceive

theorem sender_input_indexes_eq (pp : ProvisionalProposal)
    (ho : pp.original_psbt.inputs.length = pp.original_psbt.unsigned_tx.input.length)
    (hp : pp.payjoin_psbt.inputs.length = pp.payjoin_psbt.unsigned_tx.input.length) :
    sender_input_indexes pp =
      siiGo (pp.original_psbt.unsigned_tx.input.map (·.previous_output))
        (pp.payjoin_psbt.unsigned_tx.input.map (·.previous_output)) 0 := by
  unfold sender_input_indexes
  rw [input_pairs_prevs _ ho, input_pairs_prevs _ hp]

theorem c2_core (wi : WantsInputs) (op : OutPoint) (v j credited : Nat) (npi : PsbtInput)
    (hinputs : wi.payjoin_psbt.unsigned_tx.input = wi.original_psbt.unsigned_tx.input)
    (hlenP : wi.payjoin_psbt.inputs.length = wi.payjoin_psbt.unsigned_tx.input.length)
    (hlenO : wi.original_psbt.inputs.length = wi.original_psbt.unsigned_tx.input.length)
    (hj : j ≤ wi.payjoin_psbt.unsigned_tx.input.length)
    (hop : op ∉ wi.original_psbt.unsigned_tx.input.map (·.previous_output))
    (hnd : (wi.original_psbt.unsigned_tx.input.map (·.previous_output)).Nodup) :
    C2Spec wi
      { original_psbt := wi.original_psbt,
        payjoin_psbt :=
          { unsigned_tx :=
              { input := insertAt wi.payjoin_psbt.unsigned_tx.input j
                  { previous_output := op, sequence := original_sequence_of wi },
                output := addToOutput wi.payjoin_psbt.unsigned_tx.output v credited },
            inputs := insertAt wi.payjoin_psbt.inputs j npi,
            outputs := wi.payjoin_psbt.outputs },
        params := wi.params, owned_vouts := wi.owned_vouts } j := by
  have hlen2 : wi.payjoin_psbt.unsigned_tx.input.length =
      wi.original_psbt.unsigned_tx.input.length := by rw [hinputs]
  have hjO : j ≤ (wi.original_psbt.unsigned_tx.input.map (·.previous_output)).length := by
    rw [List.length_map]
    omega
  have hPrevEq : (insertAt wi.payjoin_psbt.unsigned_tx.input j
      { previous_output := op, sequence := original_sequence_of wi }).map
        (·.previous_output) =
      insertAt (wi.original_psbt.unsigned_tx.input.map (·.previous_output)) j op := by
    rw [map_insertAt, hinputs]
  have hPlen : (insertAt wi.payjoin_psbt.inputs j npi).length =
      (insertAt wi.payjoin_psbt.unsigned_tx.input j
        { previous_output := op, sequence := original_sequence_of wi }).length := by
    rw [insertAt_length, insertAt_length, hlenP]
  have hgoal : siiGo (wi.original_psbt.unsigned_tx.input.map (·.previous_output))
      ((insertAt wi.payjoin_psbt.unsigned_tx.input j
        { previous_output := op, sequence := original_sequence_of wi }).map
          (·.previous_output)) 0 =
      (List.range wi.original_psbt.unsigned_tx.input.length).map
        (fun k => if k < j then k else k + 1) := by
    rw [hPrevEq, siiGo_insertAt _ j op 0 hjO hop, List.length_map]
    refine List.map_congr_left fun k _ => ?_
    by_cases hk : k < j
    · rw [if_pos hk, if_pos hk]
      omega
    · rw [if_neg hk, if_neg hk]
      omega
  have hsii : sender_input_indexes
      { original_psbt := wi.original_psbt,
        payjoin_psbt :=
          { unsigned_tx :=
              { input := insertAt wi.payjoin_psbt.unsigned_tx.input j
                  { previous_output := op, sequence := original_sequence_of wi },
                output := addToOutput wi.payjoin_psbt.unsigned_tx.output v credited },
            inputs := insertAt wi.payjoin_psbt.inputs j npi,
            outputs := wi.payjoin_psbt.outputs },
        params := wi.params, owned_vouts := wi.owned_vouts } =
      (List.range wi.original_psbt.unsigned_tx.input.length).map
        (fun k => if k < j then k else k + 1) := by
    rw [sender_input_indexes_eq _ hlenO hPlen]
    exact hgoal
  refine ⟨?_, ?_, hsii, ?_⟩
  · intro t ht
    show ((insertAt wi.payjoin_psbt.unsigned_tx.input j
        { previous_output := op, sequence := original_sequence_of wi }).map
          (·.previous_output)).count t.previous_output = 1
    rw [hPrevEq, (perm_insertAt _ j op).count_eq]
    have htp : t.previous_output ∈
        wi.original_psbt.unsigned_tx.input.map (·.previous_output) :=
      List.mem_map_of_mem _ ht
    have hne : t.previous_output ≠ op := fun h => hop (h ▸ htp)
    rw [List.count_cons_of_ne hne]
    exact List.count_eq_one_of_mem hnd htp
  · intro t ht u hu hprev
    have hu2 : u ∈ insertAt wi.payjoin_psbt.unsigned_tx.input j
        { previous_output := op, sequence := original_sequence_of wi } := hu
    have hu3 := (perm_insertAt _ j _).mem_iff.mp hu2
    rcases List.mem_cons.mp hu3 with rfl | hmem
    · exfalso
      apply hop
      rw [show op = t.previous_output from hprev]
      exact List.mem_map_of_mem _ ht
    · rw [hinputs] at hmem
      rw [List.inj_on_of_nodup_map hnd hmem ht hprev]
  · intro i
    constructor
    · intro hi
      rw [hsii] at hi
      simp only [List.mem_map, List.mem_range] at hi
      obtain ⟨k, hk, hki⟩ := hi
      have hilen : i < (insertAt wi.payjoin_psbt.unsigned_tx.input j
          { previous_output := op, sequence := original_sequence_of wi }).length := by
        rw [insertAt_length]
        by_cases hkj : k < j
        · rw [if_pos hkj] at hki
          omega
        · rw [if_neg hkj] at hki
          omega
      refine ⟨hilen, ?_⟩
      show ((insertAt wi.payjoin_psbt.unsigned_tx.input j
          { previous_output := op, sequence := original_sequence_of wi }).map
            (·.previous_output)).getD i ⟨0, 0⟩ ∈
        wi.original_psbt.unsigned_tx.input.map (·.previous_output)
      rw [hPrevEq]
      by_cases hkj : k < j
      · rw [if_pos hkj] at hki
        rw [← hki, getD_insertAt_lt _ _ _ _ _ (by omega) hjO]
        exact getD_mem_of_lt _ _ _ (by rw [List.length_map]; omega)
      · rw [if_neg hkj] at hki
        rw [← hki, getD_insertAt_succ _ _ _ _ _ (by omega)]
        exact getD_mem_of_lt _ _ _ (by rw [List.length_map]; omega)
    · rintro ⟨hilen, hmem⟩
      have hilen2 : i < (insertAt wi.payjoin_psbt.unsigned_tx.input j
          { previous_output := op, sequence := original_sequence_of wi }).length := hilen
      rw [insertAt_length] at hilen2
      have hmem2 : ((insertAt wi.payjoin_psbt.unsigned_tx.input j
          { previous_output := op, sequence := original_sequence_of wi }).map
            (·.previous_output)).getD i ⟨0, 0⟩ ∈
          wi.original_psbt.unsigned_tx.input.map (·.previous_output) := hmem
      rw [hPrevEq] at hmem2
      have hij : i ≠ j := by
        intro h
        subst h
        rw [getD_insertAt_self _ _ _ _ hjO] at hmem2
        exact hop hmem2
      rw [hsii]
      simp only [List.mem_map, List.mem_range]
      by_cases hij2 : i < j
      · exact ⟨i, by omega, by rw [if_pos hij2]⟩
      · refine ⟨i - 1, by omega, ?_⟩
        rw [if_neg (by omega)]
        omega

/-- C2: after contributing one receiver input (witness or non-witness) at
index j to a WantsInputs state whose payjoin inputs are still the sender's
and whose outpoints are all distinct (sender outpoints pairwise distinct
and different from the contributed one), every sender outpoint appears as
exactly one payjoin input, that input keeps the sender's nSequence, and
the streaming match sender_input_indexes returns exactly the indices of
the sender inputs. -/
theorem claim_C2 (wi : WantsInputs) (txo : TxOut) (tx : Transaction) (op : OutPoint)
    (v j : Nat)
    (hinputs : wi.payjoin_psbt.unsigned_tx.input = wi.original_psbt.unsigned_tx.input)
    (hlenP : wi.payjoin_psbt.inputs.length = wi.payjoin_psbt.unsigned_tx.input.length)
    (hlenO : wi.original_psbt.inputs.length = wi.original_psbt.unsigned_tx.input.length)
    (hj : j ≤ wi.payjoin_psbt.unsigned_tx.input.length)
    (hop : op ∉ wi.original_psbt.unsigned_tx.input.map (·.previous_output))
    (hnd : (wi.original_psbt.unsigned_tx.input.map (·.previous_output)).Nodup) :
    C2Spec wi (contribute_witness_input wi txo op v j) j ∧
    C2Spec wi (contribute_non_witness_input wi tx op v j) j :=
  ⟨c2_core wi op v j txo.value { witness_utxo := some txo }
    hinputs hlenP hlenO hj hop hnd,
   c2_core wi op v j (tx.output.getD op.vout ⟨0, 0⟩).value { non_witness_utxo := some tx }
    hinputs hlenP hlenO hj hop hnd⟩

/-- C2 witness: contributing outpoint (3,0) at index 1 between the two
sender inputs of the concrete state. -/
theorem claim_C2_witness :
    C2Spec exWantsInputs
      (contribute_witness_input exWantsInputs { value := 250, script_pubkey := 30 }
        ⟨3, 0⟩ 1 1) 1 ∧
    C2Spec exWantsInputs
      (contribute_non_witness_input exWantsInputs
        { input := [], output := [{ value := 77, script_pubkey := 31 }] } ⟨3, 0⟩ 1 1) 1 :=
  claim_C2 exWantsInputs { value := 250, script_pubkey := 30 }
    { input := [], output := [{ value := 77, script_pubkey := 31 }] } ⟨3, 0⟩ 1 1
    rfl rfl rfl (by decide) (by decide) (by decide)

end PayjoinReceive

namespace PayjoinReceive

/-- C6: every psbt prepare_psbt returns has all outputs scrubbed of
bip32_derivation, tap_key_origins and tap_internal_key; all inputs
scrubbed of bip32_derivation, tap_key_origins, tap_internal_key and
partial_sigs; and each sender input (the indices the streaming match
yields against the wallet-processed psbt) additionally carries no
non_witness_utxo, witness_utxo, final_script_sig, final_script_witness
or tap_key_sig. -/
theorem claim_C6 (pp : ProvisionalProposal) (processed : Psbt) :
    (∀ o ∈ (prepare_psbt pp processed).payjoin_psbt.outputs, OutputScrubbed o) ∧
    (∀ x ∈ (prepare_psbt pp processed).payjoin_psbt.inputs, GeneralScrubbed x) ∧
    (∀ i ∈ sender_input_indexes { pp with payjoin_psbt := processed },
      SenderScrubbed ((prepare_psbt pp processed).payjoin_psbt.inputs.getD i default)) := by
  have hsame : sender_input_indexes
      { pp with payjoin_psbt :=
          { processed with
            outputs := processed.outputs.map clearOutput,
            inputs := processed.inputs.map clearInputGeneral } } =
      sender_input_indexes { pp with payjoin_psbt := processed } := by
    show siiGo ((input_pairs pp.original_psbt).map fun x => x.1.previous_output)
        ((input_pairs { processed with
            outputs := processed.outputs.map clearOutput,
            inputs := processed.inputs.map clearInputGeneral }).map
          fun x => x.1.previous_output) 0 =
      siiGo ((input_pairs pp.original_psbt).map fun x => x.1.previous_output)
        ((input_pairs processed).map fun x => x.1.previous_output) 0
    rw [input_pairs_prevs_congr processed
      { unsigned_tx := processed.unsigned_tx,
        inputs := List.map clearInputGeneral processed.inputs,
        outputs := List.map clearOutput processed.outputs } clearInputGeneral rfl rfl]
  refine ⟨?_, ?_, ?_⟩
  · intro o ho
    have ho2 : o ∈ processed.outputs.map clearOutput := ho
    obtain ⟨o0, _, rfl⟩ := List.mem_map.mp ho2
    exact clearOutput_scrubbed o0
  · intro x hx
    have hx2 : x ∈ (sender_input_indexes
        { pp with payjoin_psbt :=
            { processed with
              outputs := processed.outputs.map clearOutput,
              inputs := processed.inputs.map clearInputGeneral } }).foldl clearAt
        (processed.inputs.map clearInputGeneral) := hx
    refine mem_foldl_clearAt _ _ _ ?_ hx2
    intro y hy
    obtain ⟨y0, _, rfl⟩ := List.mem_map.mp hy
    exact clearInputGeneral_scrubbed y0
  · intro i hi
    have hi2 : i ∈ sender_input_indexes
        { pp with payjoin_psbt :=
            { processed with
              outputs := processed.outputs.map clearOutput,
              inputs := processed.inputs.map clearInputGeneral } } := by
      rw [hsame]
      exact hi
    exact foldl_clearAt_getD_mem _ (processed.inputs.map clearInputGeneral) i hi2

/-- C6 witness: sender input 0 of the concretely prepared proposal is
fully scrubbed. -/
theorem claim_C6_witness :
    SenderScrubbed ((prepare_psbt exProvisional exPsbt).payjoin_psbt.inputs.getD 0 default) :=
  (claim_C6 exProvisional exPsbt).2.2 0 (by decide)

end PayjoinReceive
